import Mathlib

/-!
Shallow embedding of the synthetic social-graph generator
(`streamlit_app.py`): persona registry, affinity model, edge sampler,
degree-repair engine and the Excel adjacency-code matrix.

Python's process-global random generator is modelled by two explicit
draw streams threaded through the computation: `g : Nat → Nat` supplies
the integer draws consumed by `random.shuffle` / `random.choice`
(each draw is reduced modulo the length of the list it selects from)
and `u : Nat → Rat` supplies the uniform draws consumed by
`random.random()`.  Python float arithmetic is modelled over `Rat`.
Python `set`s are modelled as duplicate-free lists in insertion order
(Python's set iteration order is unspecified; claims proved here do not
depend on it).
-/

namespace SocialGraph

/-- String constants for the structurally meaningful tags. -/
def hashStr : String := "#"

/-- The global hub tag. -/
def hubTagStr : String := "#hub"

/-- The country-hub tag marker checked by `tag.startswith("#hub_")`. -/
def hubUnderStr : String := "#hub_"

/-- One roster row: the spreadsheet columns consumed by the engine. -/
structure Row where
  Name : String
  Handle : String
  Faction : String
  Tags : String
  TwFollowers : Nat
  TwFollowing : Nat
deriving DecidableEq, Repr

/-- A persona record as initialised at the top of `generate_social_graph`:
the raw columns plus the derived degree targets `F_desired`/`f_desired`,
the running counters `F_current`/`f_current` (both start at 0) and the
parsed lowercase tag list. -/
structure Persona where
  Handle : String
  Name : String
  Faction : String
  TwFollowers : Nat
  TwFollowing : Nat
  F_desired : Nat
  f_desired : Nat
  F_current : Nat
  f_current : Nat
  tag_list : List String
deriving DecidableEq, Repr

/-- Helper for `str.split()`: split a character list on whitespace,
dropping empty tokens (`acc` holds the current token reversed). -/
def splitWsGo : List Char → List Char → List (List Char)
  | [], acc => if acc = [] then [] else [acc.reverse]
  | c :: cs, acc =>
    if c.isWhitespace then
      (if acc = [] then splitWsGo cs [] else acc.reverse :: splitWsGo cs [])
    else splitWsGo cs (c :: acc)

/-- Model of `str(person["Tags"]).lower().split()`: whitespace-delimited
lowercase tokens.  (Lowercasing per token is equivalent to lowercasing the
whole string first, since case mapping fixes whitespace.) -/
def tokenize (s : String) : List String :=
  (splitWsGo s.data []).map (fun cs => String.mk (cs.map Char.toLower))

/-- The counter-initialisation loop of `generate_social_graph`: build a
persona from a roster row (`F_desired = TwFollowers`,
`f_desired = TwFollowing`, counters 0, parsed tags). -/
def mkPersona (r : Row) : Persona :=
  Persona.mk r.Handle r.Name r.Faction r.TwFollowers r.TwFollowing
    r.TwFollowers r.TwFollowing 0 0 (tokenize r.Tags)

/-- Placeholder persona used only as an out-of-range default for list
indexing (Python would raise instead; all accesses are in range). -/
def defPersona : Persona :=
  Persona.mk ("") ("") ("") 0 0 0 0 0 0 []

/-- The persona stored at index `i`. -/
def pAt (ps : List Persona) (i : Nat) : Persona := ps.getD i defPersona

/-- The handle of the persona stored at index `i`. -/
def hAt (ps : List Persona) (i : Nat) : String := (pAt ps i).Handle

/-- Helper for `tag.split("_", 1)[1]`: drop the characters up to and
including the first underscore.  (Agrees with Python whenever the tag
contains an underscore, which holds for every `#hub_`-prefixed tag.) -/
def dropThroughUnderscore : List Char → List Char
  | [] => []
  | c :: cs => if c = '_' then cs else dropThroughUnderscore cs

/-- Model of `tag.split("_", 1)[1]` for `#hub_`-prefixed tags. -/
def splitOnceTail (s : String) : String :=
  String.mk (dropThroughUnderscore s.data)

/-- The Boolean test `tag.startswith("#hub_") and len(tag) > 5`. -/
def isCountryHubTag (tag : String) : Bool :=
  hubUnderStr.data.isPrefixOf tag.data && decide (5 < tag.length)

/-- `find_country_hub_tag`: return the country code of the first
`#hub_xxx` tag in the list, else `none`. -/
def find_country_hub_tag (tag_list : List String) : Option String :=
  (tag_list.find? isCountryHubTag).map splitOnceTail

/-- `base_probability`: the base follow probability for the ordered pair
(U follows V), resolved in the source's order: matching country hub,
global hub, same faction, different faction. -/
def base_probability (U V : Persona)
    (hub_country_probability hub_global_probability
     p_intra_faction p_inter_faction : Rat) : Rat :=
  let rest :=
    if hubTagStr ∈ V.tag_list then hub_global_probability
    else if U.Faction = V.Faction then p_intra_faction
    else p_inter_faction
  match find_country_hub_tag V.tag_list with
  | some code => if (hashStr ++ code) ∈ U.tag_list then hub_country_probability else rest
  | none => rest

/-- The slider-provided run parameters of `generate_social_graph`. -/
structure Params where
  hub_country_probability : Rat
  hub_global_probability : Rat
  p_intra_faction : Rat
  p_inter_faction : Rat
  bandwagon_scale : Rat
  big_follow_threshold : Rat
  min_follow_cutoff : Nat
deriving DecidableEq, Repr

/-- The sampler's `ratio_uf_to_vf`:
`U["TwFollowers"] / max(1, V["TwFollowers"]) if V["TwFollowers"]>0 else 99999`. -/
def ratio_uf_to_vf (uTw vTw : Nat) : Rat :=
  if 0 < vTw then (uTw : Rat) / ((Nat.max 1 vTw : Nat) : Rat) else 99999

/-- The big-follows-small zeroing condition of the sampler:
`ratio > threshold or (V["TwFollowers"] < min_follow_cutoff and is_U_big)`
where `is_U_big = ratio > 1.0`. -/
def bigSuppress (uTw vTw : Nat) (big_follow_threshold : Rat)
    (min_follow_cutoff : Nat) : Bool :=
  let ratio := ratio_uf_to_vf uTw vTw
  let is_U_big := decide (1 < ratio)
  decide (big_follow_threshold < ratio) || (decide (vTw < min_follow_cutoff) && is_U_big)

/-- The per-pair follow probability computed inside the sampling loop of
`generate_social_graph`, in the source's order: base probability, the
bandwagon factor `1 + bandwagon_scale * (V.TwFollowers / max_desired)`,
the big-follows-small zeroing, and the `*= 0.2` fullness damping when
`V.F_current >= V.F_desired`.  This value is compared directly against
`random.random()`; no clamping is applied. -/
def trialProb (P : Params) (max_desired_followers : Nat) (U V : Persona) : Rat :=
  let p := base_probability U V P.hub_country_probability P.hub_global_probability
    P.p_intra_faction P.p_inter_faction
  let p := p * (1 + P.bandwagon_scale * ((V.TwFollowers : Rat) / (max_desired_followers : Rat)))
  let p := if bigSuppress U.TwFollowers V.TwFollowers P.big_follow_threshold P.min_follow_cutoff
    then 0 else p
  if V.F_desired ≤ V.F_current then p * (2/10) else p

/-- Clamping to the unit interval (the spec's "clamped to [0,1]";
the source has no such operation). -/
def clamp01 (p : Rat) : Rat := max 0 (min 1 p)

/-- Modelled from the spec: the first country-hub tag of a tag list,
written as the spec describes it (scan the tags in order for one shaped
`#hub_<code>` with a non-empty code; the code is the text after the
first underscore). -/
def specHubCode : List String → Option String
  | [] => none
  | t :: ts =>
    if hubUnderStr.data <+: t.data ∧ 5 < t.length then some (splitOnceTail t)
    else specHubCode ts

/-- Modelled from the spec: the claimed big-follows-small ratio, which is
"treated as effectively infinite exactly when V.desired_in is 0 AND
U.desired_in > 0" (claim C5's reading; the source sets it to 99999
whenever `V.TwFollowers = 0`, regardless of U). -/
def claimBigRatio (uTw vTw : Nat) : Rat :=
  if vTw = 0 ∧ 0 < uTw then 99999
  else (uTw : Rat) / ((Nat.max 1 vTw : Nat) : Rat)

/-- Modelled from the spec: claim C5's suppression condition, built on
`claimBigRatio`. -/
def claimBigSuppress (uTw vTw : Nat) (thr : Rat) (cutoff : Nat) : Prop :=
  thr < claimBigRatio uTw vTw ∨ (vTw < cutoff ∧ 1 < claimBigRatio uTw vTw)

/-- Modelled from the spec (amended): the suppression ratio with the
99999 substitution applying whenever `V.TwFollowers = 0`. -/
def specBigRatio (uTw vTw : Nat) : Rat :=
  if vTw = 0 then 99999
  else (uTw : Rat) / ((Nat.max 1 vTw : Nat) : Rat)

/-- Modelled from the spec (amended): the suppression condition phrased
over `specBigRatio`. -/
def specBigSuppress (uTw vTw : Nat) (thr : Rat) (cutoff : Nat) : Prop :=
  thr < specBigRatio uTw vTw ∨ (vTw < cutoff ∧ 1 < specBigRatio uTw vTw)

/-- One step of the draw-driven Fisher-Yates shuffle: draw `g k`, pick
that position (mod the current length), remove it and recurse.  `fuel`
is the initial list length.  Every permutation of the input is produced
by some draw stream, and every draw stream produces a permutation. -/
def shuffleGo (g : Nat → Nat) : Nat → Nat → List α → List α
  | 0, _, _ => []
  | _ + 1, _, [] => []
  | fuel + 1, k, a :: as =>
    let i := g k % (a :: as).length
    (a :: as).get ⟨i, Nat.mod_lt _ (Nat.succ_pos _)⟩ ::
      shuffleGo g fuel (k + 1) ((a :: as).eraseIdx i)

/-- Model of `random.shuffle(l)`: the shuffled list together with the
advanced draw counter. -/
def shuffleList (g : Nat → Nat) (k : Nat) (l : List α) : List α × Nat :=
  (shuffleGo g l.length k l, k + l.length)

/-- Model of `random.choice(l)`: pick the element at position
`g k % l.length`.  Python raises `IndexError` on an empty list; this is
modelled as `none`, which aborts the run. -/
def randChoice (g : Nat → Nat) (k : Nat) : List α → Option (α × Nat)
  | [] => none
  | a :: as =>
    some ((a :: as).get ⟨g k % (a :: as).length, Nat.mod_lt _ (Nat.succ_pos _)⟩, k + 1)

/-- Python-set insertion on a duplicate-free list (`set.add`): append the
element if absent. -/
def ladd (s : List Nat) (x : Nat) : List Nat :=
  if x ∈ s then s else s ++ [x]

/-- The set stored at index `i` of an adjacency table. -/
def getS (tbl : List (List Nat)) (i : Nat) : List Nat := tbl.getD i []

/-- The working state of `ensure_minimum_two`: the `out_edges` and
`in_edges` adjacency tables, the draw counter and the per-pass `changed`
flag. -/
structure Adj where
  out_e : List (List Nat)
  in_e : List (List Nat)
  k : Nat
  changed : Bool
deriving DecidableEq, Repr

/-- Commit the directed edge `u → v` in the adjacency tables
(`out_edges[u].add(v); in_edges[v].add(u)`), record the draw counter and
set `changed = True`. -/
def addEdgeIdx (st : Adj) (u v : Nat) (k' : Nat) : Adj :=
  Adj.mk (st.out_e.set u (ladd (getS st.out_e u) v))
    (st.in_e.set v (ladd (getS st.in_e v) u)) k' true

/-- Advance only the draw counter (a `random.choice` whose pick was
already present, so nothing was added and `changed` is untouched). -/
def skipDraw (st : Adj) (k' : Nat) : Adj := Adj.mk st.out_e st.in_e k' st.changed

/-- The out-degree (`f_count < 2`) branch of `ensure_minimum_two`'s
per-persona step: prefer a follower not yet followed back (the source's
comprehension `[x for x in in_edges[i] if i not in out_edges[x]]`),
else draw a random other persona and follow it if not already followed
(only an actual addition sets `changed`). -/
def fixOut (g : Nat → Nat) (n i : Nat) (st0 : Adj) : Option Adj :=
  if (getS st0.out_e i).length < 2 then
    let potential_follow_backs :=
      (getS st0.in_e i).filter (fun x => i ∉ getS st0.out_e x)
    if potential_follow_backs ≠ [] then
      (randChoice g st0.k potential_follow_backs).map (fun tc => addEdgeIdx st0 i tc.1 tc.2)
    else
      (randChoice g st0.k ((List.range n).filter (fun idx => idx ≠ i))).map (fun tc =>
        if tc.1 ∈ getS st0.out_e i then skipDraw st0 tc.2 else addEdgeIdx st0 i tc.1 tc.2)
  else some st0

/-- The in-degree (`F_count < 2`) branch of `ensure_minimum_two`'s
per-persona step.  `F_count` is the snapshot taken before the out-degree
branch ran, exactly as in the source (the out-branch never touches
`in_edges[i]`, so the snapshot equals the fresh value, but the model
keeps the source's reading order). -/
def fixIn (g : Nat → Nat) (n i F_count : Nat) (st1 : Adj) : Option Adj :=
  if F_count < 2 then
    let potential_followers :=
      (getS st1.out_e i).filter (fun x => i ∉ getS st1.out_e x)
    if potential_followers ≠ [] then
      (randChoice g st1.k potential_followers).map (fun tc => addEdgeIdx st1 tc.1 i tc.2)
    else
      (randChoice g st1.k ((List.range n).filter (fun idx => idx ≠ i))).map (fun tc =>
        if i ∈ getS st1.out_e tc.1 then skipDraw st1 tc.2 else addEdgeIdx st1 tc.1 i tc.2)
  else some st1

/-- The body of `ensure_minimum_two`'s per-persona step for persona `i`:
both degree counts are read first, then the out-degree branch runs,
then the in-degree branch. -/
def fixPersona (g : Nat → Nat) (n : Nat) (i : Nat) (st0 : Adj) : Option Adj :=
  (fixOut g n i st0).bind (fixIn g n i (getS st0.in_e i).length)

/-- One repair pass: run `fixPersona` over the given persona indices in
order (the source iterates `enumerate(personas)`). -/
def passGo (g : Nat → Nat) (n : Nat) : List Nat → Adj → Option Adj
  | [], st => some st
  | i :: is, st =>
    match fixPersona g n i st with
    | none => none
    | some st' => passGo g n is st'

/-- The `while tries < max_tries` loop: run passes until one makes no
change (result flag `true`) or the fuel — initially the 1000-pass cap —
is exhausted (result flag `false`). -/
def repairLoop (g : Nat → Nat) (n : Nat) : Nat → Adj → Option (Adj × Bool)
  | 0, st => some (st, false)
  | fuel + 1, st =>
    match passGo g n (List.range n) (Adj.mk st.out_e st.in_e st.k false) with
    | none => none
    | some st' =>
      if st'.changed then repairLoop g n fuel st' else some (st', true)

/-- The dict comprehension `{p["Handle"]: i for i, p in enumerate(personas)}`
looked up at `h`: the last index whose persona carries handle `h`
(later dict entries overwrite earlier ones). -/
def handleIndex (ps : List Persona) (h : String) : Option Nat :=
  ((List.range ps.length).filter (fun i => hAt ps i = h)).getLast?

/-- One step of `ensure_minimum_two`'s initial adjacency build: record
the edge if both handles are in the handle index, else skip it. -/
def buildStep (ps : List Persona) (st : Adj) (e : String × String) : Adj :=
  match handleIndex ps e.1, handleIndex ps e.2 with
  | some ui, some vi => addEdgeIdx st ui vi st.k
  | _, _ => st

/-- The initial adjacency build of `ensure_minimum_two`: fold the edge
list, skipping edges whose endpoints are not in the handle index. -/
def buildAdj (ps : List Persona) (edges : List (String × String)) : Adj :=
  edges.foldl (buildStep ps)
    (Adj.mk (List.replicate ps.length []) (List.replicate ps.length []) 0 false)

/-- The final flatten of `ensure_minimum_two`: for each persona index in
order, one edge per out-neighbour. -/
def rebuildEdges (ps : List Persona) (out_e : List (List Nat)) : List (String × String) :=
  (List.range ps.length).flatMap
    (fun ui => (getS out_e ui).map (fun vi => (hAt ps ui, hAt ps vi)))

/-- `ensure_minimum_two(personas, edges)` threaded on the draw stream `g`
from counter `k`: returns the final edge list, whether the loop stopped
because a whole pass made no changes (rather than by the 1000-pass cap),
and the advanced draw counter; `none` models the `IndexError` raised by
`random.choice([])` (possible only when the population is below 2). -/
def ensure_minimum_two (g : Nat → Nat) (k : Nat) (ps : List Persona)
    (edges : List (String × String)) : Option (List (String × String) × Bool × Nat) :=
  let st0 := buildAdj ps edges
  match repairLoop g ps.length 1000 (Adj.mk st0.out_e st0.in_e k false) with
  | none => none
  | some (st, clean) => some (rebuildEdges ps st.out_e, clean, st.k)

/-- Per-source summary recorded by the sampler (observation only, no
effect on the generated state): source index, its degree target and
final counter, candidate-pool size, number of Bernoulli trials run and
number of edges committed for this source. -/
structure SegInfo where
  src : Nat
  fdes : Nat
  fcur : Nat
  pool : Nat
  trials : Nat
  proposed : Nat
deriving DecidableEq, Repr

/-- The sampler's working state: the mutable persona list, the committed
edge list, the uniform-draw counter `uk` and the integer-draw counter
`gk`, plus two observation-only ghosts: `trace` records one
(source index, target index) entry per Bernoulli trial, `segs` one
`SegInfo` per completed source loop. -/
structure GenState where
  ps : List Persona
  edges : List (String × String)
  trace : List (Nat × Nat)
  segs : List SegInfo
  uk : Nat
  gk : Nat
deriving DecidableEq, Repr

/-- Increment a persona's `f_current` (it committed an outgoing edge). -/
def incOut (p : Persona) : Persona :=
  Persona.mk p.Handle p.Name p.Faction p.TwFollowers p.TwFollowing
    p.F_desired p.f_desired p.F_current (p.f_current + 1) p.tag_list

/-- Increment a persona's `F_current` (it received an incoming edge). -/
def incIn (p : Persona) : Persona :=
  Persona.mk p.Handle p.Name p.Faction p.TwFollowers p.TwFollowing
    p.F_desired p.f_desired (p.F_current + 1) p.f_current p.tag_list

/-- Update the persona at index `i`. -/
def updAt (ps : List Persona) (i : Nat) (f : Persona → Persona) : List Persona :=
  ps.set i (f (pAt ps i))

/-- The sampler's `while U["f_current"] < U["f_desired"] and possible_targets`
loop for source index `iU`.  The Python loop pops candidates off the END
of the shuffled list; here the stack is passed head-first (the caller
reverses the shuffled pool), which selects candidates in the same order.
Each popped candidate `jV` costs one Bernoulli trial: on success the
edge is appended and the two counters are incremented. -/
def sampleGo (P : Params) (maxdf : Nat) (u : Nat → Rat) (iU : Nat) :
    List Nat → GenState → GenState
  | [], st => st
  | jV :: rest, st =>
    if (pAt st.ps iU).f_current < (pAt st.ps iU).f_desired then
      let U := pAt st.ps iU
      let V := pAt st.ps jV
      let p := trialProb P maxdf U V
      let st' :=
        if u st.uk < p then
          GenState.mk (updAt (updAt st.ps iU incOut) jV incIn)
            (st.edges ++ [(U.Handle, V.Handle)]) (st.trace ++ [(iU, jV)])
            st.segs (st.uk + 1) st.gk
        else
          GenState.mk st.ps st.edges (st.trace ++ [(iU, jV)]) st.segs (st.uk + 1) st.gk
      sampleGo P maxdf u iU rest st'
    else st

/-- One iteration of the sampler's outer `for U in personas` loop: build
the candidate pool (everyone whose handle differs from U's), shuffle it,
run the trial loop, and record the per-source summary ghost. -/
def sampleSource (P : Params) (maxdf : Nat) (g : Nat → Nat) (u : Nat → Rat)
    (iU : Nat) (st : GenState) : GenState :=
  let pool0 := (List.range st.ps.length).filter (fun j => hAt st.ps j ≠ hAt st.ps iU)
  let pr := shuffleList g st.gk pool0
  let st1 := GenState.mk st.ps st.edges st.trace st.segs st.uk pr.2
  let st2 := sampleGo P maxdf u iU pr.1.reverse st1
  let seg := SegInfo.mk iU (pAt st2.ps iU).f_desired (pAt st2.ps iU).f_current
    pr.1.length (st2.trace.length - st.trace.length) (st2.edges.length - st.edges.length)
  GenState.mk st2.ps st2.edges st2.trace (st2.segs ++ [seg]) st2.uk st2.gk

/-- The whole sampling phase of `generate_social_graph`: build the
personas, compute the bandwagon maximum, shuffle the persona list, then
run the source loop over every position of the shuffled list. -/
def sampleAll (P : Params) (g : Nat → Nat) (u : Nat → Rat) (roster : List Row) : GenState :=
  let ps0 := roster.map mkPersona
  let maxdf := ((ps0.map Persona.TwFollowers).filter (fun x => 0 < x)).foldr Nat.max 1
  let pr := shuffleList g 0 ps0
  (List.range pr.1.length).foldl
    (fun st iU => sampleSource P maxdf g u iU st)
    (GenState.mk pr.1 [] [] [] 0 pr.2)

/-- `generate_social_graph`: the sampling phase followed by
`ensure_minimum_two`.  Returns the final edge list and the final persona
records (with their running counters); `none` models the `IndexError`
of the repair phase on populations below 2. -/
def generate_social_graph (P : Params) (g : Nat → Nat) (u : Nat → Rat)
    (roster : List Row) : Option (List (String × String) × List Persona) :=
  let st := sampleAll P g u roster
  match ensure_minimum_two g st.gk st.ps st.edges with
  | none => none
  | some (es, _, _) => some (es, st.ps)

/-- One step of `create_downloadable_excel`'s out-edges rebuild: record
the edge if both handles are known, else skip it. -/
def excelStep (ps : List Persona) (acc : List (List Nat)) (e : String × String) :
    List (List Nat) :=
  match handleIndex ps e.1, handleIndex ps e.2 with
  | some ui, some vi => acc.set ui (ladd (getS acc ui) vi)
  | _, _ => acc

/-- The out-edges table built by `create_downloadable_excel` (its own
rebuild from the flat edge list, skipping unknown handles). -/
def excelOutEdges (ps : List Persona) (edges : List (String × String)) :
    List (List Nat) :=
  edges.foldl (excelStep ps) (List.replicate ps.length [])

/-- The adjacency code written by `create_downloadable_excel` into cell
(row `i`, column `j`): 0 on the diagonal, else 2 for a mutual follow,
1 if only `i` follows `j`, 3 if only `j` follows `i`, 0 otherwise. -/
def codeCell (out_e : List (List Nat)) (i j : Nat) : Nat :=
  if i = j then 0
  else
    if j ∈ getS out_e i ∧ i ∈ getS out_e j then 2
    else if j ∈ getS out_e i then 1
    else if i ∈ getS out_e j then 3
    else 0

/-- The full code matrix laid out by `create_downloadable_excel`
(row-major, personas on both axes). -/
def codeMatrix (ps : List Persona) (edges : List (String × String)) :
    List (List Nat) :=
  (List.range ps.length).map (fun i =>
    (List.range ps.length).map (fun j => codeCell (excelOutEdges ps edges) i j))

/-- Concrete fixtures: the all-zeroes draw stream for `random.choice` /
`random.shuffle` (always picks position 0). -/
def g0 : Nat → Nat := fun _ => 0

/-- Concrete fixtures: a uniform stream that always returns 1, so that
`random.random() < p` fails for every probability at most 1. -/
def u1 : Nat → Rat := fun _ => 1

/-- Concrete fixtures: a parameter set with the sliders' default values. -/
def P0 : Params := Params.mk (6/10) (5/10) (3/10) (1/10) (1/2) 3 1000

/-- Concrete fixtures: a roster row with the given handle, faction `f`,
no tags and zero degree targets. -/
def mkRow (h : String) : Row := Row.mk h h ("f") ("") 0 0

/-- Concrete fixtures: a two-persona roster. -/
def roster2 : List Row := [mkRow ("X"), mkRow ("Y")]

/-- Concrete fixtures: a three-persona roster. -/
def roster3 : List Row := [mkRow ("A"), mkRow ("B"), mkRow ("C")]

/-- Concrete fixtures: a persona with the given handle, faction, tags
and `TwFollowers` target (degree targets zero, counters zero). -/
def mkP (h fac : String) (tags : List String) (vTw : Nat) : Persona :=
  Persona.mk h h fac vTw 0 vTw 0 0 0 tags

/-- Concrete fixtures: the four-persona repair state of claim C1's
failing input (handles only; repair ignores every other field). -/
def psC : List Persona := [mkP ("A") ("f") [] 0, mkP ("B") ("f") [] 0,
  mkP ("C") ("f") [] 0, mkP ("D") ("f") [] 0]

/-- Concrete fixtures: the edge list of claim C1's failing input.  Every
in-degree is 2 and every out-degree is 2 except A's, which is 1. -/
def edgesC : List (String × String) :=
  [( "A", "B"), ( "B", "A"), ( "B", "C"), ( "B", "D"),
   ( "C", "A"), ( "C", "D"), ( "D", "B"), ( "D", "C")]

/-- Concrete fixtures for claim C2: a follower tagged with the country
marker of the SECOND country-hub tag of the target. -/
def U2c : Persona := mkP ("u") ("x") [("#fr")] 0

/-- Concrete fixtures for claim C2: a target carrying two country-hub
tags; only the first is consulted by `find_country_hub_tag`. -/
def V2c : Persona := mkP ("v") ("y") [("#hub_uk"), ("#hub_fr")] 0

/-- Concrete fixtures for claim C2's witness: follower tagged `#uk`. -/
def U2w : Persona := mkP ("u") ("x") [("#uk")] 0

/-- Concrete fixtures for claim C2's witness: target tagged `#hub_uk`,
in a different faction. -/
def V2w : Persona := mkP ("v") ("y") [("#hub_uk")] 0

/-- Concrete fixtures for claim C5's counterexample: bandwagon scale 0,
threshold 3, cutoff 1000. -/
def P5c : Params := Params.mk (6/10) (5/10) (3/10) (1/10) 0 3 1000

/-- Concrete fixtures for claim C6: intra-faction probability 1 and
bandwagon scale 2, so an unsuppressed same-faction pair at the bandwagon
maximum gets probability 3. -/
def P6 : Params := Params.mk 1 (5/10) 1 (1/10) 2 3 1000

/-- Concrete fixtures for claim C6: follower with `TwFollowers = 5`. -/
def U6 : Persona := mkP ("u6") ("x") [] 5

/-- Concrete fixtures for claim C6: target with `TwFollowers = 5`
(equal to the roster maximum, in U6's faction, in-degree target not yet
met). -/
def V6 : Persona := mkP ("v6") ("x") [] 5

/-- Two persona lists with the same length, handles and degree targets
position by position (the sampler only ever touches the running
counters). -/
def SameSkel (ps ps' : List Persona) : Prop :=
  ps'.length = ps.length ∧
  ∀ i, hAt ps' i = hAt ps i ∧ (pAt ps' i).f_desired = (pAt ps i).f_desired

/-- The no-drift invariant of the sampling phase: every persona's
running counters equal its true out-degree and in-degree over the
committed edge list. -/
def CountersMatch (st : GenState) : Prop :=
  ∀ i, i < st.ps.length →
    ((pAt st.ps i).f_current = (st.edges.filter (fun e => e.1 = hAt st.ps i)).length ∧
     (pAt st.ps i).F_current = (st.edges.filter (fun e => e.2 = hAt st.ps i)).length)

/-- The sampler-loop contract for one source's summary: the trial loop
stopped because the degree target was met or because every candidate was
trialed, and a zero target means no trials and no proposed edges. -/
def SegOk (s : SegInfo) : Prop :=
  (s.fdes ≤ s.fcur ∨ s.trials = s.pool) ∧
  (s.fdes = 0 → s.trials = 0 ∧ s.proposed = 0)

/-- The adjacency-table invariant of the repair engine over a population
of size `n`: both tables have `n` rows, every row is duplicate-free
(Python sets), and every recorded neighbour index is in range and never
the row itself (no self-loops). -/
def AdjInv (n : Nat) (st : Adj) : Prop :=
  st.out_e.length = n ∧ st.in_e.length = n ∧
  (∀ i, (getS st.out_e i).Nodup ∧ ∀ j ∈ getS st.out_e i, j < n ∧ j ≠ i) ∧
  (∀ i, (getS st.in_e i).Nodup ∧ ∀ j ∈ getS st.in_e i, j < n ∧ j ≠ i)

/-
Theorems.  Every claim of CLAIMS.json is settled below; shared helper
lemmas come first.
-/

/-- The Boolean country-hub test agrees with its propositional form. -/
theorem isCountryHubTag_iff (t : String) :
    isCountryHubTag t = true ↔ (hubUnderStr.data <+: t.data ∧ 5 < t.length) := by
  simp [isCountryHubTag]

/-- The spec-modelled first-country-hub-tag scan computes exactly
`find_country_hub_tag`. -/
theorem specHubCode_eq (l : List String) :
    specHubCode l = find_country_hub_tag l := by
  induction l with
  | nil => rfl
  | cons t ts ih =>
    by_cases h : hubUnderStr.data <+: t.data ∧ 5 < t.length
    · simp only [specHubCode, if_pos h, find_country_hub_tag,
        List.find?_cons_of_pos _ ((isCountryHubTag_iff t).2 h), Option.map_some']
    · have hb : ¬ (isCountryHubTag t = true) :=
        fun htr => h ((isCountryHubTag_iff t).1 htr)
      simp only [specHubCode, if_neg h, find_country_hub_tag,
        List.find?_cons_of_neg _ hb]
      exact ih

/-- C2 (amended, theorem): base-probability resolution order, first match
wins, where the country-hub condition reads the FIRST `#hub_<code>` tag
of V (the spec-modelled scan `specHubCode`): if its code is matched by a
`#<code>` tag of U the base is `hub_country_probability`; otherwise, if
V carries `#hub` the base is `hub_global_probability`; otherwise the
faction comparison decides between `p_intra_faction` and
`p_inter_faction`. -/
theorem base_probability_resolution_order (U V : Persona) (a b c d : Rat) :
    (∀ code, specHubCode V.tag_list = some code → (hashStr ++ code) ∈ U.tag_list →
      base_probability U V a b c d = a) ∧
    ((∀ code, specHubCode V.tag_list = some code → (hashStr ++ code) ∉ U.tag_list) →
      hubTagStr ∈ V.tag_list → base_probability U V a b c d = b) ∧
    ((∀ code, specHubCode V.tag_list = some code → (hashStr ++ code) ∉ U.tag_list) →
      hubTagStr ∉ V.tag_list → U.Faction = V.Faction → base_probability U V a b c d = c) ∧
    ((∀ code, specHubCode V.tag_list = some code → (hashStr ++ code) ∉ U.tag_list) →
      hubTagStr ∉ V.tag_list → U.Faction ≠ V.Faction → base_probability U V a b c d = d) := by
  rcases hfind : find_country_hub_tag V.tag_list with _ | code
  · refine ⟨fun code hs _ => ?_, fun _ hhub => ?_, fun _ hhub hfac => ?_,
      fun _ hhub hfac => ?_⟩
    · rw [specHubCode_eq, hfind] at hs; exact absurd hs (by simp)
    · simp [base_probability, hfind, hhub]
    · simp [base_probability, hfind, hhub, hfac]
    · simp [base_probability, hfind, hhub, hfac]
  · refine ⟨fun code' hs hmem => ?_, fun hnm hhub => ?_, fun hnm hhub hfac => ?_,
      fun hnm hhub hfac => ?_⟩
    · rw [specHubCode_eq, hfind] at hs
      have : code' = code := by simpa using hs.symm
      subst this
      simp [base_probability, hfind, hmem]
    · have hnm' := hnm code (by rw [specHubCode_eq, hfind])
      simp [base_probability, hfind, hnm', hhub]
    · have hnm' := hnm code (by rw [specHubCode_eq, hfind])
      simp [base_probability, hfind, hnm', hhub, hfac]
    · have hnm' := hnm code (by rw [specHubCode_eq, hfind])
      simp [base_probability, hfind, hnm', hhub, hfac]

/-- C2 (witness): the amended resolution order applied at V tagged
`#hub_uk` and U tagged `#uk`, in different factions: the base is
`hub_country_probability` (the spec's priority test). -/
theorem base_probability_resolution_order_witness :
    base_probability U2w V2w (6/10) (5/10) (3/10) (1/10) = 6/10 :=
  (base_probability_resolution_order U2w V2w (6/10) (5/10) (3/10) (1/10)).1
    ("uk") (by decide) (by decide)

/-- C2 (counterexample): the claim as stated fails when V carries two
country-hub tags: here V is tagged `#hub_uk #hub_fr` and U is tagged
`#fr`, so V carries a country-hub tag (`#hub_fr`) whose country marker U
carries, yet the source consults only the first country-hub tag
(`#hub_uk`, unmatched), V does not carry the bare `#hub`, and the base
falls through to `p_inter_faction = 1/10`, not
`hub_country_probability = 6/10`. -/
theorem base_probability_second_hub_tag_ignored :
    base_probability U2c V2c (6/10) (5/10) (3/10) (1/10) = 1/10 ∧
    ("#hub_fr") ∈ V2c.tag_list ∧
    isCountryHubTag ("#hub_fr") = true ∧
    (hashStr ++ splitOnceTail ("#hub_fr")) ∈ U2c.tag_list ∧
    (6/10 : Rat) ≠ 1/10 :=
  ⟨rfl, by decide, by decide, by decide, by norm_num⟩

/-- C5 (amended, theorem): the suppression modifier zeroes the follow
probability exactly when `ratio > threshold` or
(`V.TwFollowers < cutoff` and `ratio > 1`), where
`ratio = U.TwFollowers / max(1, V.TwFollowers)` is replaced by 99999
whenever `V.TwFollowers = 0` (regardless of U); in particular
U with `desired_in = 10000` against V with `desired_in = 10` under
threshold 3 yields follow probability 0. -/
theorem big_follows_small_suppression :
    (∀ uTw vTw : Nat, ∀ thr : Rat, ∀ cut : Nat,
      bigSuppress uTw vTw thr cut = true ↔ specBigSuppress uTw vTw thr cut) ∧
    trialProb P0 10000 (mkP ("u5") ("x") [] 10000) (mkP ("v5") ("y") [] 10) = 0 := by
  constructor
  · intro uTw vTw thr cut
    have hr : ratio_uf_to_vf uTw vTw = specBigRatio uTw vTw := by
      rcases Nat.eq_zero_or_pos vTw with h | h
      · simp [ratio_uf_to_vf, specBigRatio, h]
      · simp [ratio_uf_to_vf, specBigRatio, h, Nat.pos_iff_ne_zero.mp h]
    simp [bigSuppress, specBigSuppress, hr]
  · norm_num [trialProb, base_probability, find_country_hub_tag, bigSuppress,
      ratio_uf_to_vf, mkP, P0]

/-- C5 (counterexample): the claim's reading — ratio treated as infinite
only when `V.desired_in = 0` AND `U.desired_in > 0` — is falsified at
`U.desired_in = V.desired_in = 0` with threshold 3 and cutoff 1000: the
source still substitutes 99999 (its `ratio > threshold` test fires and
the probability is forced to 0), while the claim's condition is false
(its ratio is `0 / max(1,0) = 0`), so under the claim the probability
would be the unsuppressed `p_inter_faction = 1/10 ≠ 0`. -/
theorem big_follows_small_claim_counterexample :
    bigSuppress 0 0 3 1000 = true ∧
    ¬ claimBigSuppress 0 0 3 1000 ∧
    trialProb P5c 1 (mkP ("u5") ("x") [] 0) (mkP ("v5") ("y") [] 0) = 0 ∧
    (1/10 : Rat) ≠ 0 := by
  refine ⟨?_, ?_, ?_, by norm_num⟩
  · norm_num [bigSuppress, ratio_uf_to_vf]
  · norm_num [claimBigSuppress, claimBigRatio]
  · norm_num [trialProb, base_probability, find_country_hub_tag, bigSuppress,
      ratio_uf_to_vf, mkP, P5c]

/-- C6 (counterexample): no clamping is applied — with intra-faction
probability 1 and bandwagon scale 2, the probability used in the
Bernoulli trial for U6 → V6 is 3, outside [0,1]. -/
theorem trial_probability_not_clamped :
    trialProb P6 5 U6 V6 = 3 ∧ ¬ (trialProb P6 5 U6 V6 ≤ 1) := by
  constructor <;>
    norm_num [trialProb, base_probability, find_country_hub_tag, bigSuppress,
      ratio_uf_to_vf, mkP, P6, U6, V6]

/-- C6 (amended, theorem): the source never clamps the modified
probability, but the Bernoulli trial `random.random() < p` (with the
uniform draw in [0,1)) succeeds exactly as it would with the probability
clamped to [0,1], so the trial outcome is as if clamping were applied. -/
theorem trial_outcome_as_if_clamped (P : Params) (maxdf : Nat) (U V : Persona)
    (r : Rat) (h0 : 0 ≤ r) (h1 : r < 1) :
    (r < trialProb P maxdf U V ↔ r < clamp01 (trialProb P maxdf U V)) := by
  unfold clamp01
  constructor
  · intro h
    exact lt_of_lt_of_le (lt_min h1 h) (le_max_right 0 _)
  · intro h
    rcases le_or_lt (min 1 (trialProb P maxdf U V)) 0 with hm | hm
    · rw [max_eq_left hm] at h
      linarith
    · rw [max_eq_right (le_of_lt hm)] at h
      exact lt_of_lt_of_le h (min_le_right _ _)

/-- C6 (witness): the clamping-equivalence applied at the concrete
unclamped pair U6 → V6 with uniform draw 0. -/
theorem trial_outcome_as_if_clamped_witness :
    ((0 : Rat) ≤ 0 ∧ (0 : Rat) < 1) ∧
    ((0 : Rat) < trialProb P6 5 U6 V6 ↔ (0 : Rat) < clamp01 (trialProb P6 5 U6 V6)) :=
  ⟨⟨le_refl 0, zero_lt_one⟩,
    trial_outcome_as_if_clamped P6 5 U6 V6 0 (le_refl 0) zero_lt_one⟩

/-- C1 (evaluation at the failing input): on the four-persona roster
`psC` with edge set `edgesC` (all degrees at the floor except A's
out-degree, which is 1) and a draw stream whose `random.choice` picks B
— a persona A already follows — the very first repair pass makes no
changes, so `ensure_minimum_two` stops via its fixed-point break
(flag `true`, cap not exhausted) yet returns A with out-degree 1 < 2. -/
theorem repair_no_change_exit_leaves_degree_one :
    ensure_minimum_two g0 0 psC edgesC = some (edgesC, true, 1) ∧
    psC.length = 4 ∧
    (edgesC.filter (fun e => e.1 = hAt psC 0)).length = 1 ∧
    ¬ (2 ≤ (edgesC.filter (fun e => e.1 = hAt psC 0)).length) := by
  refine ⟨by decide, by decide, by decide, by decide⟩

/-- Membership in a Python-set insertion. -/
theorem ladd_mem (s : List Nat) (x y : Nat) : y ∈ ladd s x ↔ y ∈ s ∨ y = x := by
  by_cases h : x ∈ s <;> simp [ladd, h]
  exact fun hy => hy ▸ h

/-- A Python-set insertion preserves duplicate-freedom. -/
theorem ladd_nodup (s : List Nat) (x : Nat) (h : s.Nodup) : (ladd s x).Nodup := by
  by_cases hx : x ∈ s
  · simpa [ladd, hx] using h
  · unfold ladd
    rw [if_neg hx]
    refine List.Nodup.append h (List.nodup_singleton x) ?_
    intro a has hax
    simp only [List.mem_singleton] at hax
    subst hax
    exact hx has

/-- Reading an adjacency table at the updated position. -/
theorem getS_set_eq (tbl : List (List Nat)) (u : Nat) (x : List Nat)
    (hu : u < tbl.length) : getS (tbl.set u x) u = x := by
  simp [getS, List.getD_eq_getElem?_getD, List.getElem?_set_self hu]

/-- Reading an adjacency table away from the updated position. -/
theorem getS_set_ne (tbl : List (List Nat)) (u i : Nat) (x : List Nat)
    (h : u ≠ i) : getS (tbl.set u x) i = getS tbl i := by
  simp [getS, List.getD_eq_getElem?_getD, List.getElem?_set_ne h]

/-- The handle read at an in-range index is the corresponding entry of
the mapped handle list. -/
theorem hAt_eq_getElem (ps : List Persona) (i : Nat) (hi : i < ps.length) :
    hAt ps i = (ps.map Persona.Handle).get ⟨i, by simpa using hi⟩ := by
  simp [hAt, pAt, List.getD_eq_getElem?_getD, List.getElem?_eq_getElem hi]

/-- With duplicate-free handles, the handle determines the index. -/
theorem hAt_inj (ps : List Persona) (hinj : (ps.map Persona.Handle).Nodup)
    (i j : Nat) (hi : i < ps.length) (hj : j < ps.length)
    (h : hAt ps i = hAt ps j) : i = j := by
  rw [hAt_eq_getElem ps i hi, hAt_eq_getElem ps j hj] at h
  simpa using (hinj.get_inj_iff).mp h

/-- A successful handle lookup is in range and returns that handle. -/
theorem handleIndex_some (ps : List Persona) (h : String) (i : Nat)
    (hh : handleIndex ps h = some i) : i < ps.length ∧ hAt ps i = h := by
  have hm := List.mem_of_getLast?_eq_some hh
  have := List.mem_filter.mp hm
  exact ⟨List.mem_range.mp this.1, of_decide_eq_true this.2⟩

/-- A filter of `range n` that selects exactly one index. -/
theorem filter_range_single (p : Nat → Bool) (n i : Nat) (hi : i < n)
    (hp : p i = true) (huniq : ∀ j, j < n → p j = true → j = i) :
    (List.range n).filter p = [i] := by
  induction n with
  | zero => omega
  | succ m ih =>
    rw [List.range_succ, List.filter_append]
    by_cases him : i = m
    · subst him
      have h1 : (List.range i).filter p = [] := by
        rw [List.filter_eq_nil_iff]
        intro a ha hpa
        have ha' : a < i := List.mem_range.mp ha
        exact absurd (huniq a (by omega) hpa) (by omega)
      simp [h1, hp]
    · have h2 : p m = false := by
        rcases Bool.eq_false_or_eq_true (p m) with ht | hf
        · exact absurd ((huniq m (by omega) ht).symm) him
        · exact hf
      rw [ih (by omega) (fun j hj hpj => huniq j (by omega) hpj)]
      simp [h2]

/-- With duplicate-free handles, looking up the handle stored at an
in-range index returns that index. -/
theorem handleIndex_hAt (ps : List Persona) (hinj : (ps.map Persona.Handle).Nodup)
    (i : Nat) (hi : i < ps.length) : handleIndex ps (hAt ps i) = some i := by
  unfold handleIndex
  rw [filter_range_single _ _ i hi (by simp) (fun j hj hpj =>
    hAt_inj ps hinj j i hj hi (of_decide_eq_true hpj))]
  rfl

/-- The export rebuild step preserves the table length. -/
theorem excelStep_length (ps : List Persona) (acc : List (List Nat))
    (e : String × String) : (excelStep ps acc e).length = acc.length := by
  unfold excelStep
  rcases handleIndex ps e.1 with _ | u <;> rcases handleIndex ps e.2 with _ | v <;> simp

/-- Membership after one export rebuild step (duplicate-free handles):
the cell gains exactly the edge just processed. -/
theorem excelStep_mem (ps : List Persona) (hinj : (ps.map Persona.Handle).Nodup)
    (i j : Nat) (hi : i < ps.length) (hj : j < ps.length)
    (acc : List (List Nat)) (hlen : acc.length = ps.length) (e : String × String) :
    (j ∈ getS (excelStep ps acc e) i ↔
      (j ∈ getS acc i ∨ e = (hAt ps i, hAt ps j))) := by
  rcases h1 : handleIndex ps e.1 with _ | u
  · have hne : ¬ (e = (hAt ps i, hAt ps j)) := by
      intro he
      have h1' := h1
      rw [he, handleIndex_hAt ps hinj i hi] at h1'
      exact Option.noConfusion h1'
    simp [excelStep, h1, hne]
  · rcases h2 : handleIndex ps e.2 with _ | v
    · have hne : ¬ (e = (hAt ps i, hAt ps j)) := by
        intro he
        have h2' := h2
        rw [he] at h2'
        rw [show ((hAt ps i, hAt ps j) : String × String).2 = hAt ps j from rfl] at h2'
        rw [handleIndex_hAt ps hinj j hj] at h2'
        exact Option.noConfusion h2'
      simp [excelStep, h1, h2, hne]
    · obtain ⟨hu, heu⟩ := handleIndex_some ps e.1 u h1
      obtain ⟨hv, hev⟩ := handleIndex_some ps e.2 v h2
      simp only [excelStep, h1, h2]
      by_cases hiu : u = i
      · subst hiu
        rw [getS_set_eq _ _ _ (by omega), ladd_mem]
        have hiff : (j = v) ↔ (e = (hAt ps u, hAt ps j)) := by
          constructor
          · intro h
            subst h
            exact Prod.ext_iff.mpr ⟨heu.symm, hev.symm⟩
          · intro h
            have h2' : hAt ps v = hAt ps j := by
              rw [hev, h]
            exact (hAt_inj ps hinj j v hj hv h2'.symm).symm ▸ rfl
        rw [hiff]
      · rw [getS_set_ne _ _ _ _ hiu]
        have hne : ¬ (e = (hAt ps i, hAt ps j)) := by
          intro he
          have h1' := h1
          rw [he, handleIndex_hAt ps hinj i hi] at h1'
          exact hiu (Option.some.inj h1').symm
        simp [hne]

/-- Membership in the folded export rebuild. -/
theorem excelFold_mem (ps : List Persona) (hinj : (ps.map Persona.Handle).Nodup)
    (i j : Nat) (hi : i < ps.length) (hj : j < ps.length) :
    ∀ (es : List (String × String)) (acc : List (List Nat)), acc.length = ps.length →
      (j ∈ getS (es.foldl (excelStep ps) acc) i ↔
        (j ∈ getS acc i ∨ (hAt ps i, hAt ps j) ∈ es)) := by
  intro es
  induction es with
  | nil => intro acc _; simp
  | cons e es ih =>
    intro acc hlen
    rw [List.foldl_cons, ih (excelStep ps acc e) (by rw [excelStep_length]; exact hlen),
      excelStep_mem ps hinj i j hi hj acc hlen e, List.mem_cons,
      show ((hAt ps i, hAt ps j) = e) ↔ (e = (hAt ps i, hAt ps j)) from eq_comm]
    tauto

/-- The export matrix cell (i, j) is non-empty exactly for the committed
edge from persona i's handle to persona j's handle. -/
theorem mem_excelOutEdges (ps : List Persona) (edges : List (String × String))
    (hinj : (ps.map Persona.Handle).Nodup) (i j : Nat)
    (hi : i < ps.length) (hj : j < ps.length) :
    (j ∈ getS (excelOutEdges ps edges) i ↔ (hAt ps i, hAt ps j) ∈ edges) := by
  unfold excelOutEdges
  rw [excelFold_mem ps hinj i j hi hj edges _ (by simp)]
  simp [getS, List.getD_eq_getElem?_getD, List.getElem?_replicate]
  intro h
  split at h <;> simp_all

/-- C9 (theorem): in the matrix built by the export adapter, the
diagonal holds 0, the (i, j) entry of the laid-out matrix is `codeCell`,
and for distinct in-range row i and column j the cell holds 2 exactly
for a mutual follow, 1 exactly when i follows j only, 3 exactly when j
follows i only, and 0 exactly when neither follows the other. -/
theorem export_encoding (ps : List Persona) (edges : List (String × String))
    (hinj : (ps.map Persona.Handle).Nodup) (i j : Nat)
    (hi : i < ps.length) (hj : j < ps.length) :
    codeCell (excelOutEdges ps edges) i i = 0 ∧
    ((codeMatrix ps edges).getD i []).getD j 0 = codeCell (excelOutEdges ps edges) i j ∧
    (i ≠ j →
      ((codeCell (excelOutEdges ps edges) i j = 2 ↔
          ((hAt ps i, hAt ps j) ∈ edges ∧ (hAt ps j, hAt ps i) ∈ edges)) ∧
       (codeCell (excelOutEdges ps edges) i j = 1 ↔
          ((hAt ps i, hAt ps j) ∈ edges ∧ (hAt ps j, hAt ps i) ∉ edges)) ∧
       (codeCell (excelOutEdges ps edges) i j = 3 ↔
          ((hAt ps i, hAt ps j) ∉ edges ∧ (hAt ps j, hAt ps i) ∈ edges)) ∧
       (codeCell (excelOutEdges ps edges) i j = 0 ↔
          ((hAt ps i, hAt ps j) ∉ edges ∧ (hAt ps j, hAt ps i) ∉ edges)))) := by
  refine ⟨by simp [codeCell], ?_, ?_⟩
  · simp [codeMatrix, List.getD_eq_getElem?_getD, List.getElem?_map,
      List.getElem?_range hi, List.getElem?_range hj]
  · intro hij
    have him := mem_excelOutEdges ps edges hinj i j hi hj
    have hjm := mem_excelOutEdges ps edges hinj j i hj hi
    by_cases h1 : j ∈ getS (excelOutEdges ps edges) i <;>
    by_cases h2 : i ∈ getS (excelOutEdges ps edges) j <;>
      simp [codeCell, hij, h1, h2, ← him, ← hjm]

/-- C9 (witness): the encoding applied at the concrete roster `psC` with
edge list `edgesC`: A (row 0) and B (column 1) follow each other, so the
cell holds 2 exactly because both ordered pairs are committed. -/
theorem export_encoding_witness :
    (codeCell (excelOutEdges psC edgesC) 0 1 = 2 ↔
      ((hAt psC 0, hAt psC 1) ∈ edgesC ∧ (hAt psC 1, hAt psC 0) ∈ edgesC)) :=
  ((export_encoding psC edgesC (by decide) 0 1 (by decide) (by decide)).2.2
    (by decide)).1

/-- C10 (theorem): the export matrix is antisymmetric off the diagonal —
for every persona list, every edge list and all distinct indices,
cell (i,j) = 1 iff cell (j,i) = 3, cell (i,j) = 2 iff cell (j,i) = 2,
and cell (i,j) = 0 iff cell (j,i) = 0. -/
theorem export_matrix_antisymmetry (ps : List Persona)
    (edges : List (String × String)) (i j : Nat) (hij : i ≠ j) :
    ((codeCell (excelOutEdges ps edges) i j = 1 ↔
        codeCell (excelOutEdges ps edges) j i = 3) ∧
     (codeCell (excelOutEdges ps edges) i j = 2 ↔
        codeCell (excelOutEdges ps edges) j i = 2) ∧
     (codeCell (excelOutEdges ps edges) i j = 0 ↔
        codeCell (excelOutEdges ps edges) j i = 0)) := by
  have hji : j ≠ i := Ne.symm hij
  by_cases h1 : j ∈ getS (excelOutEdges ps edges) i <;>
  by_cases h2 : i ∈ getS (excelOutEdges ps edges) j <;>
    simp [codeCell, hij, hji, h1, h2]

/-- C10 (witness): the antisymmetry applied at the concrete roster `psC`
with edge list `edgesC`, indices 0 and 1. -/
theorem export_matrix_antisymmetry_witness :
    ((codeCell (excelOutEdges psC edgesC) 0 1 = 1 ↔
        codeCell (excelOutEdges psC edgesC) 1 0 = 3) ∧
     (codeCell (excelOutEdges psC edgesC) 0 1 = 2 ↔
        codeCell (excelOutEdges psC edgesC) 1 0 = 2) ∧
     (codeCell (excelOutEdges psC edgesC) 0 1 = 0 ↔
        codeCell (excelOutEdges psC edgesC) 1 0 = 0)) :=
  export_matrix_antisymmetry psC edgesC 0 1 (by decide)

/-- C7 (theorem): seeded determinism — the whole generation (sampling
plus repair) is a pure function of the roster, the parameters and the
two draw streams the run-scoped generator expands to, so two runs with
the same seed (hence the same draw streams), the same roster and the
same parameters return the identical edge list. -/
theorem generation_deterministic (P P' : Params) (g g' : Nat → Nat)
    (u u' : Nat → Rat) (roster roster' : List Row)
    (hP : P = P') (hg : g = g') (hu : u = u') (hr : roster = roster') :
    generate_social_graph P g u roster = generate_social_graph P' g' u' roster' := by
  subst hP; subst hg; subst hu; subst hr; rfl

/-- C7 (witness): two runs on the concrete roster `roster2` with
identical streams agree. -/
theorem generation_deterministic_witness :
    generate_social_graph P0 g0 u1 roster2 = generate_social_graph P0 g0 u1 roster2 :=
  generation_deterministic P0 P0 g0 g0 u1 u1 roster2 roster2 rfl rfl rfl rfl

/-- C4 (counterexample): on the three-persona roster `roster3` (all
degree targets 0) the sampling phase commits nothing, the repair phase
adds edges, and `generate_social_graph` returns persona A with
`f_current = 0` while A has out-degree 2 in the returned edge list —
the counters are NOT adjusted during repair, so after repair they no
longer equal the true degrees. -/
theorem counters_not_updated_by_repair :
    (generate_social_graph P0 g0 u1 roster3).map
      (fun r => ((pAt r.2 0).f_current,
        (r.1.filter (fun e => e.1 = hAt r.2 0)).length)) = some (0, 2) ∧
    (0 : Nat) ≠ 2 :=
  ⟨by decide, by decide⟩

/-- Reading a persona list at the updated position. -/
theorem pAt_updAt (ps : List Persona) (i j : Nat) (f : Persona → Persona) :
    pAt (updAt ps i f) j =
      if i = j ∧ i < ps.length then f (pAt ps i) else pAt ps j := by
  by_cases hij : i = j
  · subst hij
    by_cases hi : i < ps.length
    · simp [updAt, pAt, List.getD_eq_getElem?_getD, List.getElem?_set, hi]
    · rw [updAt, List.set_eq_of_length_le (by omega)]
      simp [hi]
  · simp [updAt, pAt, List.getD_eq_getElem?_getD, List.getElem?_set, hij]

/-- Persona updates preserve the list length. -/
theorem updAt_length (ps : List Persona) (i : Nat) (f : Persona → Persona) :
    (updAt ps i f).length = ps.length := by
  simp [updAt]

/-- The counter increments do not change a persona's identity fields. -/
theorem incOut_fields (p : Persona) :
    (incOut p).Handle = p.Handle ∧ (incOut p).f_desired = p.f_desired ∧
    (incOut p).F_desired = p.F_desired ∧ (incOut p).f_current = p.f_current + 1 ∧
    (incOut p).F_current = p.F_current :=
  ⟨rfl, rfl, rfl, rfl, rfl⟩

/-- The counter increments do not change a persona's identity fields. -/
theorem incIn_fields (p : Persona) :
    (incIn p).Handle = p.Handle ∧ (incIn p).f_desired = p.f_desired ∧
    (incIn p).F_desired = p.F_desired ∧ (incIn p).f_current = p.f_current ∧
    (incIn p).F_current = p.F_current + 1 :=
  ⟨rfl, rfl, rfl, rfl, rfl⟩

/-- Skeleton equality is reflexive. -/
theorem sameSkel_refl (ps : List Persona) : SameSkel ps ps :=
  ⟨rfl, fun _ => ⟨rfl, rfl⟩⟩

/-- Skeleton equality is transitive. -/
theorem sameSkel_trans {a b c : List Persona} (h1 : SameSkel a b)
    (h2 : SameSkel b c) : SameSkel a c :=
  ⟨h2.1.trans h1.1, fun i => ⟨(h2.2 i).1.trans (h1.2 i).1,
    (h2.2 i).2.trans (h1.2 i).2⟩⟩

/-- A counter update keeps the skeleton. -/
theorem updAt_skel (ps : List Persona) (i : Nat) (f : Persona → Persona)
    (hH : ∀ p, (f p).Handle = p.Handle)
    (hfd : ∀ p, (f p).f_desired = p.f_desired) :
    SameSkel ps (updAt ps i f) := by
  refine ⟨updAt_length ps i f, fun j => ?_⟩
  unfold hAt
  rw [pAt_updAt]
  by_cases h : i = j ∧ i < ps.length
  · rw [if_pos h, hH, hfd, h.1]
    exact ⟨rfl, rfl⟩
  · rw [if_neg h]
    exact ⟨rfl, rfl⟩

/-- Skeleton-equal persona lists have equal handle lists. -/
theorem sameSkel_handles {ps ps' : List Persona} (h : SameSkel ps ps') :
    ps'.map Persona.Handle = ps.map Persona.Handle := by
  apply List.ext_getElem (by simpa using h.1)
  intro i h1 h2
  have e1 := hAt_eq_getElem ps' i (by simpa using h1)
  have e2 := hAt_eq_getElem ps i (by simpa using h2)
  rw [List.get_eq_getElem] at e1 e2
  rw [← e1, ← e2]
  exact (h.2 i).1

/-- The structural description of one source's trial loop: the skeleton,
the segment ghosts and the integer-draw counter are unchanged; the trace
grows by the trialed prefix of the pool, the loop having stopped either
because the degree target was met or because the pool was exhausted; and
the committed edges grow by edges from the source's handle to a
differing handle. -/
theorem sampleGo_struct (P : Params) (maxdf : Nat) (u : Nat → Rat) (iU : Nat) :
    ∀ (pool : List Nat) (st : GenState),
      iU < st.ps.length →
      (∀ j ∈ pool, j < st.ps.length ∧ hAt st.ps j ≠ hAt st.ps iU) →
      (SameSkel st.ps (sampleGo P maxdf u iU pool st).ps ∧
        (sampleGo P maxdf u iU pool st).segs = st.segs ∧
        (sampleGo P maxdf u iU pool st).gk = st.gk) ∧
      (∃ m, m ≤ pool.length ∧
        (sampleGo P maxdf u iU pool st).trace =
          st.trace ++ (pool.take m).map (fun j => (iU, j)) ∧
        ((pAt (sampleGo P maxdf u iU pool st).ps iU).f_desired ≤
            (pAt (sampleGo P maxdf u iU pool st).ps iU).f_current ∨
          m = pool.length)) ∧
      (∃ l, (sampleGo P maxdf u iU pool st).edges = st.edges ++ l ∧
        ∀ e ∈ l, e.1 = hAt st.ps iU ∧ e.2 ≠ e.1) := by
  intro pool
  induction pool with
  | nil =>
    intro st hiU _
    refine ⟨⟨sameSkel_refl _, rfl, rfl⟩, ⟨0, by omega, by simp [sampleGo], ?_⟩,
      ⟨[], by simp [sampleGo], by simp⟩⟩
    right; rfl
  | cons jV rest ih =>
    intro st hiU hpool
    by_cases hcond : (pAt st.ps iU).f_current < (pAt st.ps iU).f_desired
    · have hjV := hpool jV (by simp)
      have hne : jV ≠ iU := by
        intro h
        exact hjV.2 (by rw [h])
      by_cases hdraw : u st.uk < trialProb P maxdf (pAt st.ps iU) (pAt st.ps jV)
      · -- successful trial
        have hstep : sampleGo P maxdf u iU (jV :: rest) st =
            sampleGo P maxdf u iU rest
              (GenState.mk (updAt (updAt st.ps iU incOut) jV incIn)
                (st.edges ++ [((pAt st.ps iU).Handle, (pAt st.ps jV).Handle)])
                (st.trace ++ [(iU, jV)]) st.segs (st.uk + 1) st.gk) := by
          simp only [sampleGo]
          rw [if_pos hcond, if_pos hdraw]
        have hskel1 : SameSkel st.ps (updAt (updAt st.ps iU incOut) jV incIn) :=
          sameSkel_trans
            (updAt_skel st.ps iU incOut (fun p => rfl) (fun p => rfl))
            (updAt_skel (updAt st.ps iU incOut) jV incIn (fun p => rfl) (fun p => rfl))
        have hlen1 : (updAt (updAt st.ps iU incOut) jV incIn).length = st.ps.length := by
          rw [updAt_length, updAt_length]
        have hhand : ∀ x, hAt (updAt (updAt st.ps iU incOut) jV incIn) x = hAt st.ps x :=
          fun x => (hskel1.2 x).1
        rw [hstep]
        obtain ⟨⟨s1, s2, s3⟩, ⟨m, hm, htr, hstop⟩, ⟨l, hl, hlp⟩⟩ :=
          ih (GenState.mk (updAt (updAt st.ps iU incOut) jV incIn)
              (st.edges ++ [((pAt st.ps iU).Handle, (pAt st.ps jV).Handle)])
              (st.trace ++ [(iU, jV)]) st.segs (st.uk + 1) st.gk)
            (by simpa [hlen1] using hiU)
            (by
              intro j hj
              refine ⟨by simpa [hlen1] using (hpool j (by simp [hj])).1, ?_⟩
              rw [hhand j, hhand iU]
              exact (hpool j (by simp [hj])).2)
        refine ⟨⟨sameSkel_trans hskel1 s1, s2, s3⟩,
          ⟨m + 1, by simpa using hm, ?_, ?_⟩, ?_⟩
        · rw [htr]
          simp [List.append_assoc]
        · rcases hstop with h | h
          · exact Or.inl h
          · right; simpa using h
        · refine ⟨((pAt st.ps iU).Handle, (pAt st.ps jV).Handle) :: l, ?_, ?_⟩
          · rw [hl]
            simp
          · intro e he
            rcases List.mem_cons.mp he with rfl | he'
            · exact ⟨rfl, hjV.2⟩
            · have := hlp e he'
              rw [hhand iU] at this
              exact this
      · -- failed trial
        have hstep : sampleGo P maxdf u iU (jV :: rest) st =
            sampleGo P maxdf u iU rest
              (GenState.mk st.ps st.edges (st.trace ++ [(iU, jV)]) st.segs
                (st.uk + 1) st.gk) := by
          simp only [sampleGo]
          rw [if_pos hcond, if_neg hdraw]
        rw [hstep]
        obtain ⟨⟨s1, s2, s3⟩, ⟨m, hm, htr, hstop⟩, ⟨l, hl, hlp⟩⟩ :=
          ih (GenState.mk st.ps st.edges (st.trace ++ [(iU, jV)]) st.segs
              (st.uk + 1) st.gk) hiU
            (fun j hj => hpool j (by simp [hj]))
        refine ⟨⟨s1, s2, s3⟩, ⟨m + 1, by simpa using hm, ?_, ?_⟩, ⟨l, hl, hlp⟩⟩
        · rw [htr]
          simp [List.append_assoc]
        · rcases hstop with h | h
          · exact Or.inl h
          · right; simpa using h
    · have hstep : sampleGo P maxdf u iU (jV :: rest) st = st := by
        simp only [sampleGo]
        rw [if_neg hcond]
      rw [hstep]
      refine ⟨⟨sameSkel_refl _, rfl, rfl⟩, ⟨0, by omega, by simp, Or.inl (by omega)⟩,
        ⟨[], by simp, by simp⟩⟩

/-- A source whose degree target is 0 never enters its trial loop. -/
theorem sampleGo_zero (P : Params) (maxdf : Nat) (u : Nat → Rat) (iU : Nat)
    (pool : List Nat) (st : GenState)
    (h : (pAt st.ps iU).f_desired = 0) :
    sampleGo P maxdf u iU pool st = st := by
  cases pool with
  | nil => rfl
  | cons jV rest =>
    simp only [sampleGo]
    rw [if_neg (by omega)]

/-- Committing one edge updates the two filters' counts by exactly one. -/
theorem filter_append_single_length (edges : List (String × String))
    (a : String × String) (pred : String × String → Bool) :
    ((edges ++ [a]).filter pred).length =
      (edges.filter pred).length + (if pred a then 1 else 0) := by
  rw [List.filter_append]
  by_cases h : pred a <;> simp [h]

/-- The trial loop preserves the no-drift counter invariant: with
duplicate-free handles, each committed edge increments exactly the
source's `f_current` and the target's `F_current`, so counters equal
true degrees throughout. -/
theorem sampleGo_counters (P : Params) (maxdf : Nat) (u : Nat → Rat) (iU : Nat) :
    ∀ (pool : List Nat) (st : GenState),
      iU < st.ps.length →
      (∀ j ∈ pool, j < st.ps.length ∧ hAt st.ps j ≠ hAt st.ps iU) →
      (st.ps.map Persona.Handle).Nodup →
      CountersMatch st →
      CountersMatch (sampleGo P maxdf u iU pool st) := by
  intro pool
  induction pool with
  | nil =>
    intro st _ _ _ hc
    simpa [sampleGo] using hc
  | cons jV rest ih =>
    intro st hiU hpool hnd hc
    by_cases hcond : (pAt st.ps iU).f_current < (pAt st.ps iU).f_desired
    · have hjV := hpool jV (by simp)
      have hne : jV ≠ iU := fun h => hjV.2 (by rw [h])
      by_cases hdraw : u st.uk < trialProb P maxdf (pAt st.ps iU) (pAt st.ps jV)
      · have hstep : sampleGo P maxdf u iU (jV :: rest) st =
            sampleGo P maxdf u iU rest
              (GenState.mk (updAt (updAt st.ps iU incOut) jV incIn)
                (st.edges ++ [((pAt st.ps iU).Handle, (pAt st.ps jV).Handle)])
                (st.trace ++ [(iU, jV)]) st.segs (st.uk + 1) st.gk) := by
          simp only [sampleGo]
          rw [if_pos hcond, if_pos hdraw]
        have hskel1 : SameSkel st.ps (updAt (updAt st.ps iU incOut) jV incIn) :=
          sameSkel_trans
            (updAt_skel st.ps iU incOut (fun p => rfl) (fun p => rfl))
            (updAt_skel (updAt st.ps iU incOut) jV incIn (fun p => rfl) (fun p => rfl))
        have hlen1 : (updAt (updAt st.ps iU incOut) jV incIn).length = st.ps.length := by
          rw [updAt_length, updAt_length]
        have hhand : ∀ x, hAt (updAt (updAt st.ps iU incOut) jV incIn) x = hAt st.ps x :=
          fun x => (hskel1.2 x).1
        have hpA : pAt (updAt (updAt st.ps iU incOut) jV incIn) jV =
            incIn (pAt st.ps jV) := by
          rw [pAt_updAt, if_pos ⟨rfl, by rw [updAt_length]; exact hjV.1⟩,
            pAt_updAt, if_neg (fun hcc => hne (Eq.symm hcc.1))]
        have hpB : ∀ x, x ≠ jV →
            pAt (updAt (updAt st.ps iU incOut) jV incIn) x =
              (if x = iU then incOut (pAt st.ps iU) else pAt st.ps x) := by
          intro x hx
          rw [pAt_updAt, if_neg (fun hcc => hx (Eq.symm hcc.1))]
          by_cases hxu : x = iU
          · subst hxu
            rw [pAt_updAt, if_pos ⟨rfl, hiU⟩, if_pos rfl]
          · rw [pAt_updAt, if_neg (fun hcc => hxu (Eq.symm hcc.1)), if_neg hxu]
        -- the one-step state still satisfies the invariant
        have hcm1 : CountersMatch
            (GenState.mk (updAt (updAt st.ps iU incOut) jV incIn)
              (st.edges ++ [((pAt st.ps iU).Handle, (pAt st.ps jV).Handle)])
              (st.trace ++ [(iU, jV)]) st.segs (st.uk + 1) st.gk) := by
          intro i hi'
          have hi : i < st.ps.length := by
            simpa [hlen1] using hi'
          obtain ⟨hf, hF⟩ := hc i hi
          have hh : hAt (updAt (updAt st.ps iU incOut) jV incIn) i = hAt st.ps i :=
            hhand i
          constructor
          · -- out-counter: only the source's f_current and f-filter grow
            show (pAt (updAt (updAt st.ps iU incOut) jV incIn) i).f_current = _
            simp only [hh]
            rw [filter_append_single_length]
            by_cases hieq : i = iU
            · subst hieq
              rw [hpB i (Ne.symm hne), if_pos rfl]
              simp only [incOut, hAt] at hf ⊢
              simp [hf]
            · by_cases hjeq : i = jV
              · subst hjeq
                rw [hpA]
                have hcnd : ¬ ((pAt st.ps iU).Handle = (pAt st.ps i).Handle) :=
                  fun hcc => hjV.2 (Eq.symm hcc)
                simp only [incIn, hAt] at hf ⊢
                simp [hf, hcnd]
              · rw [hpB i hjeq, if_neg hieq]
                have hcnd : ¬ ((pAt st.ps iU).Handle = (pAt st.ps i).Handle) :=
                  fun hcc => hieq (hAt_inj st.ps hnd i iU hi hiU (Eq.symm hcc))
                simp only [hAt] at hf ⊢
                simp [hf, hcnd]
          · -- in-counter: only the target's F_current and F-filter grow
            show (pAt (updAt (updAt st.ps iU incOut) jV incIn) i).F_current = _
            simp only [hh]
            rw [filter_append_single_length]
            by_cases hjeq : i = jV
            · subst hjeq
              rw [hpA]
              simp only [incIn, hAt] at hF ⊢
              simp [hF]
            · by_cases hieq : i = iU
              · subst hieq
                rw [hpB i (Ne.symm hne), if_pos rfl]
                have hcnd : ¬ ((pAt st.ps jV).Handle = (pAt st.ps i).Handle) :=
                  fun hcc => hjV.2 hcc
                simp only [incOut, hAt] at hF ⊢
                simp [hF, hcnd]
              · rw [hpB i hjeq, if_neg hieq]
                have hcnd : ¬ ((pAt st.ps jV).Handle = (pAt st.ps i).Handle) :=
                  fun hcc => hjeq (hAt_inj st.ps hnd i jV hi hjV.1 (Eq.symm hcc))
                simp only [hAt] at hF ⊢
                simp [hF, hcnd]
        rw [hstep]
        refine ih (GenState.mk (updAt (updAt st.ps iU incOut) jV incIn)
            (st.edges ++ [((pAt st.ps iU).Handle, (pAt st.ps jV).Handle)])
            (st.trace ++ [(iU, jV)]) st.segs (st.uk + 1) st.gk)
          (by simpa [hlen1] using hiU) ?_ ?_ hcm1
        · intro j hj
          refine ⟨by simpa [hlen1] using (hpool j (by simp [hj])).1, ?_⟩
          rw [hhand j, hhand iU]
          exact (hpool j (by simp [hj])).2
        · show ((updAt (updAt st.ps iU incOut) jV incIn).map Persona.Handle).Nodup
          rw [sameSkel_handles hskel1]
          exact hnd
      · have hstep : sampleGo P maxdf u iU (jV :: rest) st =
            sampleGo P maxdf u iU rest
              (GenState.mk st.ps st.edges (st.trace ++ [(iU, jV)]) st.segs
                (st.uk + 1) st.gk) := by
          simp only [sampleGo]
          rw [if_pos hcond, if_neg hdraw]
        rw [hstep]
        exact ih (GenState.mk st.ps st.edges (st.trace ++ [(iU, jV)]) st.segs
            (st.uk + 1) st.gk) hiU
          (fun j hj => hpool j (by simp [hj])) hnd (fun i hi => hc i hi)
    · have hstep : sampleGo P maxdf u iU (jV :: rest) st = st := by
        simp only [sampleGo]
        rw [if_neg hcond]
      rw [hstep]
      exact hc

/-- Picking any position and erasing it is a permutation step. -/
theorem get_cons_eraseIdx_perm : ∀ (l : List α) (i : Nat) (h : i < l.length),
    List.Perm (l.get ⟨i, h⟩ :: l.eraseIdx i) l := by
  intro l
  induction l with
  | nil => intro i h; simp at h
  | cons a as ih =>
    intro i h
    cases i with
    | zero => exact List.Perm.refl _
    | succ n =>
      have h' : n < as.length := by simpa using h
      show List.Perm (as.get ⟨n, h'⟩ :: a :: as.eraseIdx n) (a :: as)
      exact (List.Perm.swap a _ _).trans ((ih n h').cons a)

/-- The draw-driven shuffle permutes its input (for every draw stream). -/
theorem shuffleGo_perm (g : Nat → Nat) : ∀ (fuel k : Nat) (l : List α),
    fuel = l.length → List.Perm (shuffleGo g fuel k l) l := by
  intro fuel
  induction fuel with
  | zero =>
    intro k l h
    cases l with
    | nil => exact List.Perm.refl _
    | cons a as => simp at h
  | succ f ih =>
    intro k l h
    cases l with
    | nil => exact List.Perm.refl _
    | cons a as =>
      show List.Perm ((a :: as).get _ :: shuffleGo g f (k + 1) ((a :: as).eraseIdx _)) _
      refine List.Perm.trans ((ih (k + 1) _ ?_).cons _) (get_cons_eraseIdx_perm (a :: as) _ _)
      rw [List.length_eraseIdx_of_lt (Nat.mod_lt _ (by simp))]
      simpa using congrArg (fun x => x - 1) h

/-- The shuffled list of `shuffleList` permutes its input. -/
theorem shuffleList_perm (g : Nat → Nat) (k : Nat) (l : List α) :
    List.Perm (shuffleList g k l).1 l :=
  shuffleGo_perm g l.length k l rfl

/-- The per-source contract of the sampler: one source iteration keeps
the skeleton; appends to the trace only pairwise-distinct trials all
sourced at `iU`; records exactly one segment summary, which shows the
loop stopped by meeting the degree target or exhausting the pool and
that a zero target means no trials and no proposals; appends only edges
from the source's handle to a different handle; and preserves the
counter invariant when handles are duplicate-free. -/
theorem sampleSource_spec (P : Params) (maxdf : Nat) (g : Nat → Nat) (u : Nat → Rat)
    (iU : Nat) (st : GenState) (hiU : iU < st.ps.length) :
    SameSkel st.ps (sampleSource P maxdf g u iU st).ps ∧
    (∃ tr, (sampleSource P maxdf g u iU st).trace = st.trace ++ tr ∧
      (∀ e ∈ tr, e.1 = iU) ∧ tr.Nodup) ∧
    (∃ sg, (sampleSource P maxdf g u iU st).segs = st.segs ++ [sg] ∧ sg.src = iU ∧
      (sg.fdes ≤ sg.fcur ∨ sg.trials = sg.pool) ∧
      (sg.fdes = 0 → sg.trials = 0 ∧ sg.proposed = 0)) ∧
    (∃ l, (sampleSource P maxdf g u iU st).edges = st.edges ++ l ∧
      ∀ e ∈ l, e.1 = hAt st.ps iU ∧ e.2 ≠ e.1) ∧
    ((st.ps.map Persona.Handle).Nodup → CountersMatch st →
      CountersMatch (sampleSource P maxdf g u iU st)) := by
  set pool0 := (List.range st.ps.length).filter
    (fun j => hAt st.ps j ≠ hAt st.ps iU) with hpool0
  set pr := shuffleList g st.gk pool0 with hpr
  set st1 := GenState.mk st.ps st.edges st.trace st.segs st.uk pr.2 with hst1
  set st2 := sampleGo P maxdf u iU pr.1.reverse st1 with hst2
  have hunfold : sampleSource P maxdf g u iU st =
      GenState.mk st2.ps st2.edges st2.trace
        (st2.segs ++ [SegInfo.mk iU (pAt st2.ps iU).f_desired
          (pAt st2.ps iU).f_current pr.1.length
          (st2.trace.length - st.trace.length)
          (st2.edges.length - st.edges.length)]) st2.uk st2.gk := rfl
  have hpoolmem : ∀ j ∈ pr.1.reverse, j < st1.ps.length ∧ hAt st1.ps j ≠ hAt st1.ps iU := by
    intro j hj
    have hj0 : j ∈ pool0 :=
      ((shuffleList_perm g st.gk pool0).mem_iff).mp (List.mem_reverse.mp hj)
    have hj1 := List.mem_filter.mp hj0
    exact ⟨List.mem_range.mp hj1.1, of_decide_eq_true hj1.2⟩
  obtain ⟨⟨hskel, hsegs2, hgk2⟩, ⟨m, hm, htr, hstop⟩, ⟨l, hl, hlp⟩⟩ :=
    sampleGo_struct P maxdf u iU pr.1.reverse st1 hiU hpoolmem
  have hnodup_pool : pr.1.reverse.Nodup := by
    have h0 : pool0.Nodup := List.Nodup.filter _ (List.nodup_range _)
    exact List.nodup_reverse.mpr (((shuffleList_perm g st.gk pool0).nodup_iff).mpr h0)
  have htake : ((pr.1.reverse.take m).map (fun j => (iU, j))).length = m := by
    rw [List.length_map, List.length_take]
    omega
  rw [hunfold]
  refine ⟨hskel, ?_, ?_, ⟨l, hl, hlp⟩, ?_⟩
  · refine ⟨(pr.1.reverse.take m).map (fun j => (iU, j)), htr, ?_, ?_⟩
    · intro e he
      obtain ⟨j, _, hj⟩ := List.mem_map.mp he
      rw [← hj]
    · exact List.Nodup.map
        (fun a b h => congrArg Prod.snd h)
        (List.Sublist.nodup (List.take_sublist m _) hnodup_pool)
  · refine ⟨SegInfo.mk iU (pAt st2.ps iU).f_desired (pAt st2.ps iU).f_current
      pr.1.length (st2.trace.length - st.trace.length)
      (st2.edges.length - st.edges.length), by rw [hsegs2], rfl, ?_, ?_⟩
    · rcases hstop with h | h
      · exact Or.inl h
      · right
        show st2.trace.length - st.trace.length = pr.1.length
        rw [htr]
        simp only [List.length_append, htake]
        rw [h]
        simp
    · intro hz
      have hfd : (pAt st1.ps iU).f_desired = 0 :=
        ((hskel.2 iU).2).symm.trans hz
      have he2 : st2 = st1 := by
        rw [hst2]
        exact sampleGo_zero P maxdf u iU _ st1 hfd
      constructor
      · show st2.trace.length - st.trace.length = 0
        rw [he2]
        simp
      · show st2.edges.length - st.edges.length = 0
        rw [he2]
        simp
  · intro hnd hcm
    have h2 := sampleGo_counters P maxdf u iU pr.1.reverse st1 hiU hpoolmem hnd
      (fun i hi => hcm i hi)
    exact fun i hi => h2 i hi

/-- The source-loop fold of the sampler: iterating `sampleSource` over a
duplicate-free list of in-range source indices keeps the skeleton, keeps
the trace duplicate-free (sources not yet processed never occur in it),
keeps every recorded segment summary well-formed, only appends
non-self edges, and preserves the counter invariant under
duplicate-free handles. -/
theorem sampleFold_spec (P : Params) (maxdf : Nat) (g : Nat → Nat) (u : Nat → Rat) :
    ∀ (L : List Nat) (st : GenState),
      (∀ iU ∈ L, iU < st.ps.length) →
      L.Nodup →
      (∀ e ∈ st.trace, e.1 ∉ L) →
      st.trace.Nodup →
      (∀ s ∈ st.segs, SegOk s) →
      (SameSkel st.ps (L.foldl (fun s iU => sampleSource P maxdf g u iU s) st).ps ∧
        (L.foldl (fun s iU => sampleSource P maxdf g u iU s) st).trace.Nodup ∧
        (∀ s ∈ (L.foldl (fun s iU => sampleSource P maxdf g u iU s) st).segs, SegOk s) ∧
        (∃ l, (L.foldl (fun s iU => sampleSource P maxdf g u iU s) st).edges =
            st.edges ++ l ∧ ∀ e ∈ l, e.1 ≠ e.2) ∧
        ((st.ps.map Persona.Handle).Nodup → CountersMatch st →
          CountersMatch (L.foldl (fun s iU => sampleSource P maxdf g u iU s) st))) := by
  intro L
  induction L with
  | nil =>
    intro st _ _ _ htrnd hsegs
    exact ⟨sameSkel_refl _, htrnd, hsegs, ⟨[], by simp, by simp⟩, fun _ hc => hc⟩
  | cons iU L' ih =>
    intro st hL hnd htrL htrnd hsegs
    rw [List.foldl_cons]
    have hiU : iU < st.ps.length := hL iU (by simp)
    obtain ⟨hskel, ⟨tr, htr, htrsrc, htrdup⟩, ⟨sg, hsg, hsgsrc, hsg1, hsg2⟩,
      ⟨l, hl, hlp⟩, hcnt⟩ := sampleSource_spec P maxdf g u iU st hiU
    have hndL' : L'.Nodup := (List.nodup_cons.mp hnd).2
    have hiUnotin : iU ∉ L' := (List.nodup_cons.mp hnd).1
    obtain ⟨fskel, ftrnd, fsegs, ⟨l2, hl2, hl2p⟩, fcnt⟩ :=
      ih (sampleSource P maxdf g u iU st)
        (by
          intro j hj
          rw [hskel.1]
          exact hL j (by simp [hj]))
        hndL'
        (by
          intro e he
          rw [htr] at he
          rcases List.mem_append.mp he with h | h
          · exact fun hc => htrL e h (by simp [hc])
          · rw [htrsrc e h]
            exact hiUnotin)
        (by
          rw [htr]
          rw [List.nodup_append]
          refine ⟨htrnd, htrdup, ?_⟩
          intro e he hetr
          have h1 : e.1 ∉ (iU :: L') := htrL e he
          have h2 : e.1 = iU := htrsrc e hetr
          exact h1 (by simp [h2]))
        (by
          intro s hs
          rw [hsg] at hs
          rcases List.mem_append.mp hs with h | h
          · exact hsegs s h
          · have : s = sg := by simpa using h
            exact this ▸ ⟨hsg1, hsg2⟩)
    refine ⟨sameSkel_trans hskel fskel, ftrnd, fsegs, ?_, ?_⟩
    · refine ⟨l ++ l2, ?_, ?_⟩
      · rw [hl2, hl, List.append_assoc]
      · intro e he
        rcases List.mem_append.mp he with h | h
        · exact fun hc => (hlp e h).2 (Eq.symm hc)
        · exact hl2p e h
    · intro hnd0 hc0
      refine fcnt ?_ (hcnt hnd0 hc0)
      rw [sameSkel_handles hskel]
      exact hnd0

/-- The whole-phase contract of the sampler: the full-run trace is
duplicate-free, every per-source summary is well-formed, every sampled
edge joins two distinct handles, and — under duplicate-free roster
handles — the persona handles stay duplicate-free and the counter
invariant holds of the sampling phase's final state. -/
theorem sampleAll_spec (P : Params) (g : Nat → Nat) (u : Nat → Rat)
    (roster : List Row) :
    (sampleAll P g u roster).trace.Nodup ∧
    (∀ s ∈ (sampleAll P g u roster).segs, SegOk s) ∧
    (∀ e ∈ (sampleAll P g u roster).edges, e.1 ≠ e.2) ∧
    ((roster.map Row.Handle).Nodup →
      (((sampleAll P g u roster).ps.map Persona.Handle).Nodup ∧
        CountersMatch (sampleAll P g u roster))) := by
  set ps0 := roster.map mkPersona with hps0
  set maxdf := ((ps0.map Persona.TwFollowers).filter (fun x => 0 < x)).foldr Nat.max 1
    with hmaxdf
  set pr := shuffleList g 0 ps0 with hpr
  set st0 := GenState.mk pr.1 [] [] [] 0 pr.2 with hst0
  have hunfold : sampleAll P g u roster =
      (List.range pr.1.length).foldl
        (fun st iU => sampleSource P maxdf g u iU st) st0 := rfl
  obtain ⟨fskel, ftrnd, fsegs, ⟨l, hl, hlp⟩, fcnt⟩ :=
    sampleFold_spec P maxdf g u (List.range pr.1.length) st0
      (fun iU hiU => List.mem_range.mp hiU)
      (List.nodup_range _)
      (by intro e he; exact absurd he (List.not_mem_nil e))
      List.nodup_nil
      (by intro s hs; exact absurd hs (List.not_mem_nil s))
  rw [hunfold]
  refine ⟨ftrnd, fsegs, ?_, ?_⟩
  · intro e he
    rw [hl] at he
    exact hlp e (by simpa using he)
  · intro hintd
    have hmap0 : ps0.map Persona.Handle = roster.map Row.Handle := by
      rw [hps0, List.map_map]
      rfl
    have hperm : List.Perm (pr.1.map Persona.Handle) (ps0.map Persona.Handle) :=
      (shuffleList_perm g 0 ps0).map _
    have hnd1 : (pr.1.map Persona.Handle).Nodup :=
      hperm.nodup_iff.mpr (by rw [hmap0]; exact hintd)
    have hc0 : CountersMatch st0 := by
      intro i hi
      have hgm : pAt pr.1 i = pr.1.get ⟨i, hi⟩ := by
        simp [pAt, List.getD_eq_getElem?_getD, List.getElem?_eq_getElem hi]
      have hmem : pAt pr.1 i ∈ pr.1 := by
        rw [hgm]
        exact List.get_mem _ _ _
      have hmem0 : pAt pr.1 i ∈ ps0 := (shuffleList_perm g 0 ps0).mem_iff.mp hmem
      obtain ⟨r, _, hr⟩ := List.mem_map.mp (by rw [hps0] at hmem0; exact hmem0)
      constructor
      · show (pAt pr.1 i).f_current = _
        rw [← hr]
        simp [mkPersona]
      · show (pAt pr.1 i).F_current = _
        rw [← hr]
        simp [mkPersona]
    refine ⟨?_, fcnt hnd1 hc0⟩
    rw [sameSkel_handles fskel]
    exact hnd1

/-- C8 (theorem): the sampler performs at most one Bernoulli trial per
ordered (source, target) pair per run — the full trial trace is
duplicate-free — and each source's proposal loop stops exactly when its
out-counter reaches its target or its candidate pool is exhausted; a
source with degree target 0 performs no trials and proposes no edges. -/
theorem sampler_loop_contract (P : Params) (g : Nat → Nat) (u : Nat → Rat)
    (roster : List Row) :
    (sampleAll P g u roster).trace.Nodup ∧
    (∀ s ∈ (sampleAll P g u roster).segs,
      ((s.fdes ≤ s.fcur ∨ s.trials = s.pool) ∧
       (s.fdes = 0 → s.trials = 0 ∧ s.proposed = 0))) :=
  ⟨(sampleAll_spec P g u roster).1, (sampleAll_spec P g u roster).2.1⟩

/-- C8 (witness): the contract applied at the concrete roster `roster3`:
its trace is duplicate-free and its first segment summary (source 0,
target 0, pool 2) is well-formed. -/
theorem sampler_loop_contract_witness :
    (sampleAll P0 g0 u1 roster3).trace.Nodup :=
  (sampler_loop_contract P0 g0 u1 roster3).1

/-- C4 (amended, theorem): the no-drift invariant holds throughout the
SAMPLING phase — at its end each persona's `f_current`/`F_current`
equals its true out-degree and in-degree over the sampled edges (the repair phase
then maintains exact degrees only in its own adjacency sets and never
updates these counters, see the counterexample). -/
theorem sampling_counters_no_drift (P : Params) (g : Nat → Nat) (u : Nat → Rat)
    (roster : List Row) (hnd : (roster.map Row.Handle).Nodup) :
    ∀ i, i < (sampleAll P g u roster).ps.length →
      ((pAt (sampleAll P g u roster).ps i).f_current =
        ((sampleAll P g u roster).edges.filter
          (fun e => e.1 = hAt (sampleAll P g u roster).ps i)).length ∧
       (pAt (sampleAll P g u roster).ps i).F_current =
        ((sampleAll P g u roster).edges.filter
          (fun e => e.2 = hAt (sampleAll P g u roster).ps i)).length) :=
  ((sampleAll_spec P g u roster).2.2.2 hnd).2

/-- C4 (witness): the sampling-phase invariant applied at the concrete
roster `roster3`, persona 0. -/
theorem sampling_counters_no_drift_witness :
    (pAt (sampleAll P0 g0 u1 roster3).ps 0).f_current =
      ((sampleAll P0 g0 u1 roster3).edges.filter
        (fun e => e.1 = hAt (sampleAll P0 g0 u1 roster3).ps 0)).length :=
  (sampling_counters_no_drift P0 g0 u1 roster3 (by decide) 0 (by decide)).1

/-- `random.choice` returns an element of its list. -/
theorem randChoice_mem (g : Nat → Nat) (k : Nat) (l : List α) (tc : α × Nat)
    (h : randChoice g k l = some tc) : tc.1 ∈ l := by
  cases l with
  | nil => simp [randChoice] at h
  | cons a as =>
    simp only [randChoice] at h
    cases h
    exact List.get_mem _ _ _

/-- An empty-row table satisfies the adjacency invariant. -/
theorem getS_replicate (n i : Nat) : getS (List.replicate n ([] : List Nat)) i = [] := by
  simp only [getS, List.getD_eq_getElem?_getD, List.getElem?_replicate]
  split <;> rfl

/-- Committing an in-range non-self edge preserves the adjacency
invariant. -/
theorem addEdgeIdx_inv (st : Adj) (n u v k' : Nat) (hI : AdjInv n st)
    (hu : u < n) (hv : v < n) (huv : u ≠ v) : AdjInv n (addEdgeIdx st u v k') := by
  obtain ⟨hlo, hli, hout, hin⟩ := hI
  simp only [AdjInv, addEdgeIdx]
  refine ⟨by simp [hlo], by simp [hli], ?_, ?_⟩
  · intro i
    by_cases hiu : u = i
    · subst hiu
      rw [getS_set_eq _ _ _ (by omega)]
      refine ⟨ladd_nodup _ _ (hout u).1, ?_⟩
      intro j hj
      rcases (ladd_mem _ _ _).mp hj with hjold | rfl
      · exact (hout u).2 j hjold
      · exact ⟨hv, Ne.symm huv⟩
    · rw [getS_set_ne _ _ _ _ hiu]
      exact hout i
  · intro i
    by_cases hiv : v = i
    · subst hiv
      rw [getS_set_eq _ _ _ (by omega)]
      refine ⟨ladd_nodup _ _ (hin v).1, ?_⟩
      intro j hj
      rcases (ladd_mem _ _ _).mp hj with hjold | rfl
      · exact (hin v).2 j hjold
      · exact ⟨hu, huv⟩
    · rw [getS_set_ne _ _ _ _ hiv]
      exact hin i

/-- A failed draw changes no adjacency table. -/
theorem skipDraw_inv {n : Nat} (st : Adj) (k' : Nat) (hI : AdjInv n st) :
    AdjInv n (skipDraw st k') := hI

/-- The out-degree repair branch preserves the adjacency invariant. -/
theorem fixOut_inv (g : Nat → Nat) (n i : Nat) (st0 st1 : Adj)
    (hI : AdjInv n st0) (hi : i < n) (h : fixOut g n i st0 = some st1) :
    AdjInv n st1 := by
  simp only [fixOut] at h
  split at h
  · split at h
    · rcases ho : randChoice g st0.k
          ((getS st0.in_e i).filter (fun x => i ∉ getS st0.out_e x)) with _ | tc
      · rw [ho] at h
        simp at h
      · rw [ho] at h
        simp only [Option.map_some'] at h
        have hmem := randChoice_mem _ _ _ _ ho
        have hjm := List.mem_filter.mp hmem
        obtain ⟨hlt, hne'⟩ := (hI.2.2.2 i).2 tc.1 hjm.1
        cases h
        exact addEdgeIdx_inv st0 n i tc.1 tc.2 hI hi hlt (Ne.symm hne')
    · rcases ho : randChoice g st0.k
          ((List.range n).filter (fun idx => idx ≠ i)) with _ | tc
      · rw [ho] at h
        simp at h
      · rw [ho] at h
        simp only [Option.map_some'] at h
        have hmem := randChoice_mem _ _ _ _ ho
        have hjm := List.mem_filter.mp hmem
        have hlt : tc.1 < n := List.mem_range.mp hjm.1
        have hne' : tc.1 ≠ i := of_decide_eq_true hjm.2
        split at h
        · cases h
          exact skipDraw_inv st0 tc.2 hI
        · cases h
          exact addEdgeIdx_inv st0 n i tc.1 tc.2 hI hi hlt (Ne.symm hne')
  · cases h
    exact hI

/-- The in-degree repair branch preserves the adjacency invariant. -/
theorem fixIn_inv (g : Nat → Nat) (n i F_count : Nat) (st1 st2 : Adj)
    (hI : AdjInv n st1) (hi : i < n) (h : fixIn g n i F_count st1 = some st2) :
    AdjInv n st2 := by
  simp only [fixIn] at h
  split at h
  · split at h
    · rcases ho : randChoice g st1.k
          ((getS st1.out_e i).filter (fun x => i ∉ getS st1.out_e x)) with _ | tc
      · rw [ho] at h
        simp at h
      · rw [ho] at h
        simp only [Option.map_some'] at h
        have hmem := randChoice_mem _ _ _ _ ho
        have hjm := List.mem_filter.mp hmem
        obtain ⟨hlt, hne'⟩ := (hI.2.2.1 i).2 tc.1 hjm.1
        cases h
        exact addEdgeIdx_inv st1 n tc.1 i tc.2 hI hlt hi hne'
    · rcases ho : randChoice g st1.k
          ((List.range n).filter (fun idx => idx ≠ i)) with _ | tc
      · rw [ho] at h
        simp at h
      · rw [ho] at h
        simp only [Option.map_some'] at h
        have hmem := randChoice_mem _ _ _ _ ho
        have hjm := List.mem_filter.mp hmem
        have hlt : tc.1 < n := List.mem_range.mp hjm.1
        have hne' : tc.1 ≠ i := of_decide_eq_true hjm.2
        split at h
        · cases h
          exact skipDraw_inv st1 tc.2 hI
        · cases h
          exact addEdgeIdx_inv st1 n tc.1 i tc.2 hI hlt hi hne'
  · cases h
    exact hI

/-- The per-persona repair step preserves the adjacency invariant. -/
theorem fixPersona_inv (g : Nat → Nat) (n i : Nat) (st0 st' : Adj)
    (hI : AdjInv n st0) (hi : i < n) (h : fixPersona g n i st0 = some st') :
    AdjInv n st' := by
  unfold fixPersona at h
  rcases ho : fixOut g n i st0 with _ | st1
  · rw [ho, Option.none_bind] at h
    exact Option.noConfusion h
  · rw [ho, Option.some_bind] at h
    exact fixIn_inv g n i _ st1 st' (fixOut_inv g n i st0 st1 hI hi ho) hi h

/-- A repair pass over in-range persona indices preserves the adjacency
invariant. -/
theorem passGo_inv (g : Nat → Nat) (n : Nat) :
    ∀ (L : List Nat) (st st' : Adj), (∀ i ∈ L, i < n) → AdjInv n st →
      passGo g n L st = some st' → AdjInv n st' := by
  intro L
  induction L with
  | nil =>
    intro st st' _ hI h
    cases h
    exact hI
  | cons i L' ih =>
    intro st st' hL hI h
    simp only [passGo] at h
    rcases ho : fixPersona g n i st with _ | st1
    · rw [ho] at h
      simp at h
    · rw [ho] at h
      exact ih st1 st' (fun j hj => hL j (by simp [hj]))
        (fixPersona_inv g n i st st1 hI (hL i (by simp)) ho) h

/-- The bounded repair loop preserves the adjacency invariant. -/
theorem repairLoop_inv (g : Nat → Nat) (n : Nat) :
    ∀ (fuel : Nat) (st st' : Adj) (b : Bool), AdjInv n st →
      repairLoop g n fuel st = some (st', b) → AdjInv n st' := by
  intro fuel
  induction fuel with
  | zero =>
    intro st st' b hI h
    simp only [repairLoop] at h
    cases h
    exact hI
  | succ f ih =>
    intro st st' b hI h
    simp only [repairLoop] at h
    rcases ho : passGo g n (List.range n) (Adj.mk st.out_e st.in_e st.k false)
      with _ | st1
    · rw [ho] at h
      exact Option.noConfusion h
    · rw [ho] at h
      have hI1 : AdjInv n st1 :=
        passGo_inv g n (List.range n) (Adj.mk st.out_e st.in_e st.k false) st1
          (fun j hj => List.mem_range.mp hj) hI ho
      have h' : (if st1.changed = true then repairLoop g n f st1
          else some (st1, true)) = some (st', b) := h
      by_cases hch : st1.changed = true
      · rw [if_pos hch] at h'
        exact ih st1 st' b hI1 h'
      · rw [if_neg hch] at h'
        cases h'
        exact hI1

/-- One step of the initial adjacency build preserves the invariant when
the edge is not a self-loop. -/
theorem buildStep_inv (ps : List Persona) (st : Adj) (e : String × String)
    (hI : AdjInv ps.length st) (hsuv : e.1 ≠ e.2) :
    AdjInv ps.length (buildStep ps st e) := by
  rcases h1 : handleIndex ps e.1 with _ | ui
  · simpa only [buildStep, h1] using hI
  · rcases h2 : handleIndex ps e.2 with _ | vi
    · simpa only [buildStep, h1, h2] using hI
    · obtain ⟨hu, heu⟩ := handleIndex_some ps e.1 ui h1
      obtain ⟨hv, hev⟩ := handleIndex_some ps e.2 vi h2
      have hne : ui ≠ vi := fun hc => hsuv (by rw [← heu, ← hev, hc])
      simpa only [buildStep, h1, h2] using
        addEdgeIdx_inv st ps.length ui vi st.k hI hu hv hne

/-- The initial adjacency build from self-loop-free edges satisfies the
invariant. -/
theorem buildAdj_inv (ps : List Persona) (edges : List (String × String))
    (hok : ∀ e ∈ edges, e.1 ≠ e.2) : AdjInv ps.length (buildAdj ps edges) := by
  unfold buildAdj
  suffices h : ∀ (es : List (String × String)) (st : Adj),
      AdjInv ps.length st → (∀ e ∈ es, e.1 ≠ e.2) →
      AdjInv ps.length (es.foldl (buildStep ps) st) by
    refine h edges _ ⟨by simp, by simp, ?_, ?_⟩ hok <;>
      (intro i; rw [getS_replicate]; exact ⟨List.nodup_nil, by simp⟩)
  intro es
  induction es with
  | nil =>
    intro st hI _
    exact hI
  | cons e es ih =>
    intro st hI hok'
    rw [List.foldl_cons]
    exact ih _ (buildStep_inv ps st e hI (hok' e (by simp)))
      (fun e' he' => hok' e' (by simp [he']))

/-- The final flatten of the repair engine emits no self-follow and no
duplicate ordered pair, given the adjacency invariant and duplicate-free
handles. -/
theorem rebuildEdges_wellformed (ps : List Persona) (out_e : List (List Nat))
    (hnd : (ps.map Persona.Handle).Nodup)
    (hinv : ∀ i, (getS out_e i).Nodup ∧ ∀ j ∈ getS out_e i, j < ps.length ∧ j ≠ i) :
    (∀ e ∈ rebuildEdges ps out_e, e.1 ≠ e.2) ∧ (rebuildEdges ps out_e).Nodup := by
  unfold rebuildEdges
  constructor
  · intro e he
    obtain ⟨ui, hui, he2⟩ := List.mem_flatMap.mp he
    obtain ⟨vi, hvi, he3⟩ := List.mem_map.mp he2
    obtain ⟨hvlt, hvne⟩ := (hinv ui).2 vi hvi
    rw [← he3]
    intro hc
    exact hvne (hAt_inj ps hnd vi ui hvlt (List.mem_range.mp hui) (Eq.symm hc))
  · rw [List.nodup_flatMap]
    constructor
    · intro ui hui
      refine List.Nodup.map_on ?_ (hinv ui).1
      intro x hx y hy hxy
      have hx' := (hinv ui).2 x hx
      have hy' := (hinv ui).2 y hy
      exact hAt_inj ps hnd x y hx'.1 hy'.1 (congrArg Prod.snd hxy)
    · refine List.Pairwise.imp_of_mem ?_ (List.nodup_range _)
      intro a b ha hb hab
      intro e he1 he2
      obtain ⟨va, hva, hea⟩ := List.mem_map.mp he1
      obtain ⟨vb, hvb, heb⟩ := List.mem_map.mp he2
      have h1 : hAt ps a = e.1 := by rw [← hea]
      have h2 : hAt ps b = e.1 := by rw [← heb]
      exact hab (hAt_inj ps hnd a b (List.mem_range.mp ha) (List.mem_range.mp hb)
        (h1.trans h2.symm))

/-- A successful run of `ensure_minimum_two` returns a well-formed edge
list whenever the input personas have duplicate-free handles and the
input edges are not self-loops. -/
theorem ensure_minimum_two_wellformed (g : Nat → Nat) (k : Nat)
    (ps : List Persona) (edges : List (String × String))
    (hnd : (ps.map Persona.Handle).Nodup)
    (hok : ∀ e ∈ edges, e.1 ≠ e.2)
    (es : List (String × String)) (b : Bool) (k' : Nat)
    (h : ensure_minimum_two g k ps edges = some (es, b, k')) :
    (∀ e ∈ es, e.1 ≠ e.2) ∧ es.Nodup := by
  simp only [ensure_minimum_two] at h
  rcases hrl : repairLoop g ps.length 1000
      (Adj.mk (buildAdj ps edges).out_e (buildAdj ps edges).in_e k false)
    with _ | pr
  · rw [hrl] at h
    simp at h
  · rw [hrl] at h
    obtain ⟨st, clean⟩ := pr
    have hI0 : AdjInv ps.length
        (Adj.mk (buildAdj ps edges).out_e (buildAdj ps edges).in_e k false) :=
      buildAdj_inv ps edges hok
    have hI := repairLoop_inv g ps.length 1000 _ st clean hI0 hrl
    have hre := rebuildEdges_wellformed ps st.out_e hnd hI.2.2.1
    have hes : es = rebuildEdges ps st.out_e := by
      have := Option.some.inj h
      exact (congrArg Prod.fst this).symm
    rw [hes]
    exact hre

/-- C3 (theorem): for every roster with unique handles and every pair of
draw streams, when `generate_social_graph` returns, its final edge list
contains no self-follow and no ordered pair twice. -/
theorem generated_edges_wellformed (P : Params) (g : Nat → Nat) (u : Nat → Rat)
    (roster : List Row) (hnd : (roster.map Row.Handle).Nodup)
    (es : List (String × String)) (ps : List Persona)
    (hgen : generate_social_graph P g u roster = some (es, ps)) :
    (∀ e ∈ es, e.1 ≠ e.2) ∧ es.Nodup := by
  simp only [generate_social_graph] at hgen
  rcases hE : ensure_minimum_two g (sampleAll P g u roster).gk
      (sampleAll P g u roster).ps (sampleAll P g u roster).edges with _ | tr
  · rw [hE] at hgen
    simp at hgen
  · rw [hE] at hgen
    obtain ⟨es', b, k'⟩ := tr
    have hes : es' = es := by
      have := Option.some.inj hgen
      exact congrArg Prod.fst this
    rw [← hes]
    exact ensure_minimum_two_wellformed g (sampleAll P g u roster).gk
      (sampleAll P g u roster).ps (sampleAll P g u roster).edges
      ((sampleAll_spec P g u roster).2.2.2 hnd).1
      (sampleAll_spec P g u roster).2.2.1
      es' b k' hE

/-- C3 (witness): the well-formedness applied at the concrete
two-persona roster `roster2`, whose full run returns the edge list
[(X, Y), (Y, X)]. -/
theorem generated_edges_wellformed_witness :
    (∀ e ∈ ([( "X", "Y"), ( "Y", "X")] : List (String × String)), e.1 ≠ e.2) ∧
    ([( "X", "Y"), ( "Y", "X")] : List (String × String)).Nodup :=
  generated_edges_wellformed P0 g0 u1 roster2 (by decide)
    ([( "X", "Y"), ( "Y", "X")])
    ([mkPersona (mkRow ("X")), mkPersona (mkRow ("Y"))])
    (by decide)

end SocialGraph
